import Mathlib

/-!
Shallow embedding of the graph-tasks core library
(graph_abc.py, graph_building.py, graph_factory.py, algorithmics.py).

Vertices are natural numbers; edge weights are modelled as rationals
(the Python code performs no float arithmetic beyond equality tests and
identity conversions, so `ℚ` is a faithful carrier).  Python exceptions
are modelled with `Except PyErr`:
`IndexError ↦ .indexError`, `ValueError ↦ .valueError`,
`UnboundLocalError ↦ .unboundLocalError`, `KeyError ↦ .keyError`.
Python's stable `sorted` / `list.sort` are modelled by
`List.insertionSort`, which is stable.
-/

inductive PyErr where
  | indexError
  | valueError
  | unboundLocalError
  | keyError
deriving Repr, DecidableEq

deriving instance DecidableEq for Except

/-- The state of a `Graph` object (graph_abc.py).  The Python dict
`_adjacency_list` has keys exactly `0..vertices-1` in insertion order, so it
is modelled as a list of rows indexed by vertex id. -/
structure Graph where
  vertices : Nat
  directed : Bool
  weighted : Bool
  adj : List (List (Nat × ℚ))
deriving Repr, DecidableEq

/-- The adjacency storage created by `Graph.__init__` for a validated vertex
count: `{i: [] for i in range(vertices)}`. -/
def initGraph (vertices : Nat) (directed weighted : Bool) : Graph :=
  ⟨vertices, directed, weighted, List.replicate vertices []⟩

/-- `Graph.__init__` (graph_abc.py, lines 13-26): rejects a negative vertex
count with `ValueError`, otherwise creates the empty adjacency storage. -/
def mkGraph (vertices : Int) (directed weighted : Bool) : Except PyErr Graph :=
  if vertices < 0 then .error .valueError
  else .ok (initGraph vertices.toNat directed weighted)

/-- Read `self._adjacency_list[v]` (total: valid callers always pass
`v < vertices`, where the row exists). -/
def getAdj (G : Graph) (v : Nat) : List (Nat × ℚ) :=
  G.adj.getD v []

/-- Replace the row of `v` in the adjacency storage. -/
def setAdj (G : Graph) (v : Nat) (row : List (Nat × ℚ)) : Graph :=
  { G with adj := G.adj.set v row }

/-- `UnweightedGraph.add_edge` (graph_building.py, lines 13-34):
validates both endpoints (`IndexError`), rejects self-loops (`ValueError`),
then appends `(v, 1.0)` to `adjacency[u]` unless already present, and for
undirected graphs likewise appends the mirror `(u, 1.0)` to `adjacency[v]`. -/
def addEdgeUnweighted (G : Graph) (u v : Nat) (_w : ℚ) : Except PyErr Graph :=
  if ¬ u < G.vertices then .error .indexError
  else if ¬ v < G.vertices then .error .indexError
  else if u = v then .error .valueError
  else
    let G1 := if (v, (1 : ℚ)) ∈ getAdj G u then G else setAdj G u (getAdj G u ++ [(v, 1)])
    let G2 :=
      if G.directed then G1
      else if (u, (1 : ℚ)) ∈ getAdj G1 v then G1 else setAdj G1 v (getAdj G1 v ++ [(u, 1)])
    .ok G2

/-- The inner helper `_set_edge` of `WeightedGraph.add_edge`
(graph_building.py, lines 62-69): overwrite the first entry with the given
neighbour in place, else append at the end. -/
def setEntry (lst : List (Nat × ℚ)) (dst : Nat) (w : ℚ) : List (Nat × ℚ) :=
  match lst with
  | [] => [(dst, w)]
  | (nbr, w0) :: rest =>
      if nbr = dst then (dst, w) :: rest else (nbr, w0) :: setEntry rest dst w

/-- `WeightedGraph.add_edge` (graph_building.py, lines 46-73): same
validation as the unweighted variant, then `_set_edge(u, v, w)` and, for
undirected graphs, `_set_edge(v, u, w)`. -/
def addEdgeWeighted (G : Graph) (u v : Nat) (w : ℚ) : Except PyErr Graph :=
  if ¬ u < G.vertices then .error .indexError
  else if ¬ v < G.vertices then .error .indexError
  else if u = v then .error .valueError
  else
    let G1 := setAdj G u (setEntry (getAdj G u) v w)
    let G2 := if G.directed then G1 else setAdj G1 v (setEntry (getAdj G1 v) u w)
    .ok G2

/-- Dynamic dispatch of `add_edge`: an `UnweightedGraph` instance has
`weighted = False` and uses the fixed-weight policy, a `WeightedGraph`
instance has `weighted = True` and uses the explicit-weight policy. -/
def addEdge (G : Graph) (u v : Nat) (w : ℚ) : Except PyErr Graph :=
  if G.weighted then addEdgeWeighted G u v w else addEdgeUnweighted G u v w

/-- Python's stable `sorted(neighbors, key=lambda x: x[0])`. -/
def sortByFst (l : List (Nat × ℚ)) : List (Nat × ℚ) :=
  List.insertionSort (fun p q => p.1 ≤ q.1) l

/-- `Graph.get_adjacency_list` (graph_abc.py, lines 55-71): a fresh copy,
each row sorted ascending by neighbour id; dict keys iterate `0..n-1`. -/
def get_adjacency_list (G : Graph) : List (List (Nat × ℚ)) :=
  (List.range G.vertices).map (fun v => sortByFst (getAdj G v))

/-- Entry read `m[i][j]` of a list-of-lists matrix. -/
def mget (m : List (List ℚ)) (i j : Nat) : ℚ :=
  (m.getD i []).getD j 0

/-- Entry write `m[i][j] = x` of a list-of-lists matrix. -/
def mset (m : List (List ℚ)) (i j : Nat) (x : ℚ) : List (List ℚ) :=
  m.set i ((m.getD i []).set j x)

/-- `Graph.get_adjacency_matrix` (graph_abc.py, lines 74-87): start from the
zero `n × n` matrix and assign `matrix[u][v] = w if weighted else 1.0` for
every stored entry. -/
def get_adjacency_matrix (G : Graph) : List (List ℚ) :=
  let n := G.vertices
  let m0 := List.replicate n (List.replicate n (0 : ℚ))
  (List.range n).foldl
    (fun m u =>
      (getAdj G u).foldl
        (fun m p => mset m u p.1 (if G.weighted then p.2 else 1)) m)
    m0

/-- Python's `range(a, b)`: the ascending list `[a, a+1, ..., b-1]`
(empty when `b ≤ a`). -/
def pyRange (a b : Nat) : List Nat :=
  List.range' a (b - a)

/-- The edge list collected by `Graph.get_incidence_matrix` for a directed
graph: for each `u` in ascending order the internal neighbour row, sorted by
neighbour id (the Python key `(u, x[0])` has constant first component), each
neighbour contributing the pair `(u, v)`. -/
def incidenceEdgesDirected (G : Graph) : List (Nat × Nat) :=
  ((List.range G.vertices).map
    (fun u => (sortByFst (getAdj G u)).map (fun p => (u, p.1)))).flatten

/-- The collection loop of `Graph.get_incidence_matrix` for an undirected
graph: scan the (unsorted) internal rows in vertex order, keep a pair
`(u, v)` when `u < v` and neither `(u, v)` nor `(v, u)` was kept before
(`seen` is the list of kept pairs). -/
def collectUndirectedEdges (G : Graph) : List (Nat × Nat) :=
  ((List.range G.vertices).foldl
    (fun (st : List (Nat × Nat) × List (Nat × Nat)) u =>
      (getAdj G u).foldl
        (fun st p =>
          if u < p.1 ∧ (u, p.1) ∉ st.2 ∧ (p.1, u) ∉ st.2 then
            (st.1 ++ [(u, p.1)], st.2 ++ [(u, p.1)])
          else st)
        st)
    ([], [])).1

/-- Python tuple comparison `(min(e), max(e)) <= (min(f), max(f))`
used as the key of `edges.sort` for undirected incidence columns. -/
def minMaxLe (e f : Nat × Nat) : Prop :=
  min e.1 e.2 < min f.1 f.2 ∨ (min e.1 e.2 = min f.1 f.2 ∧ max e.1 e.2 ≤ max f.1 f.2)

instance : DecidableRel minMaxLe := by
  intro e f
  unfold minMaxLe
  infer_instance

/-- Entry write into the `List (List ℤ)` incidence matrix. -/
def zset (m : List (List ℤ)) (i j : Nat) (x : ℤ) : List (List ℤ) :=
  m.set i ((m.getD i []).set j x)

/-- Entry read of the `List (List ℤ)` incidence matrix. -/
def zget (m : List (List ℤ)) (i j : Nat) : ℤ :=
  (m.getD i []).getD j 0

/-- `Graph.get_incidence_matrix` (graph_abc.py, lines 90-133): build the
deterministically ordered edge list (directed: per-source sorted rows;
undirected: `u < v` collection followed by a stable sort on
`(min, max)`), then fill an `n × m` zero matrix column by column with
`-1/+1` (directed) or `+1/+1` (undirected). -/
def get_incidence_matrix (G : Graph) : List (List ℤ) :=
  let n := G.vertices
  let edges :=
    if G.directed then incidenceEdgesDirected G
    else List.insertionSort minMaxLe (collectUndirectedEdges G)
  let m := edges.length
  let m0 := List.replicate n (List.replicate m (0 : ℤ))
  edges.enum.foldl
    (fun mat ie =>
      if G.directed then zset (zset mat ie.2.1 ie.1 (-1)) ie.2.2 ie.1 1
      else zset (zset mat ie.2.1 ie.1 1) ie.2.2 ie.1 1)
    m0

/-- The body of the `while q` loop of `GraphAlgorithms.bfs`
(algorithmics.py, lines 53-59), with explicit fuel (the loop performs at most
one dequeue per enqueue, and at most `n` vertices are ever enqueued, so any
fuel `≥ n` reproduces the Python loop exactly). -/
def bfsLoop (adj : List (List (Nat × ℚ))) : Nat → List Nat → List Bool → List Nat
  | 0, _, _ => []
  | _ + 1, [], _ => []
  | fuel + 1, u :: q, visited =>
      let st := (adj.getD u []).foldl
        (fun (st : List Bool × List Nat) p =>
          if st.1.getD p.1 true = false then (st.1.set p.1 true, st.2 ++ [p.1]) else st)
        (visited, q)
      u :: bfsLoop adj fuel st.2 st.1

/-- `GraphAlgorithms.bfs` (algorithmics.py, lines 17-60): validate the start
vertex (`IndexError`), then run the queue-based traversal over the sorted
adjacency-list export, marking vertices visited at enqueue time, and return
the dequeue order. -/
def bfs (G : Graph) (start : Nat) : Except PyErr (List Nat) :=
  if ¬ start < G.vertices then .error .indexError
  else
    let adj := get_adjacency_list G
    .ok (bfsLoop adj G.vertices [start] ((List.replicate G.vertices false).set start true))

/-- The symmetrised adjacency built by `connected_components` for directed
graphs (algorithmics.py, lines 140-146): `undirected_adj[u]` is the set of
all `v` with `u → v` or `v → u`, listed ascending by `sorted(...)`, each
paired with weight 1.0. -/
def symmetrizeAdj (n : Nat) (adj : List (List (Nat × ℚ))) : List (List (Nat × ℚ)) :=
  (List.range n).map
    (fun u =>
      ((List.range n).filter
        (fun v => (adj.getD u []).any (fun p => p.1 = v) ∨ (adj.getD v []).any (fun p => p.1 = u))).map
        (fun v => (v, (1 : ℚ))))

/-- `dfs_collect` of `connected_components` (algorithmics.py, lines 151-156):
mark the vertex, append it to the component, recurse into unvisited
neighbours.  Fuel bounds the recursion depth; every call marks a previously
unvisited vertex, so depth never exceeds `n` and fuel `n + 1` is exact. -/
def dfsCollect (adj : List (List (Nat × ℚ))) :
    Nat → Nat → List Bool × List Nat → List Bool × List Nat
  | 0, _, st => st
  | fuel + 1, u, st =>
      let st1 := (st.1.set u true, st.2 ++ [u])
      (adj.getD u []).foldl
        (fun st p => if st.1.getD p.1 true = false then dfsCollect adj fuel p.1 st else st)
        st1

/-- Python's `sorted` on a list of vertex ids. -/
def sortNat (l : List Nat) : List Nat :=
  List.insertionSort (· ≤ ·) l

/-- `GraphAlgorithms.connected_components` (algorithmics.py, lines 108-169).
The main loop body (lines 158-166) reads the name `u`, which at that point is
bound only when the directed-graph symmetrisation loop ran (leaving
`u = n - 1`); for an undirected graph with at least one vertex the first
unvisited `v` triggers Python's `UnboundLocalError`, modelled as
`.error .unboundLocalError`.  When `u` is bound the body marks and collects
`u` (not `v`) and explores `adj[u]`. -/
def connected_components (G : Graph) : Except PyErr (List (List Nat)) :=
  let n := G.vertices
  let adj0 := get_adjacency_list G
  let adj := if G.directed then symmetrizeAdj n adj0 else adj0
  ((List.range n).foldlM
    (fun (st : List Bool × List (List Nat)) v =>
      if st.1.getD v true = false then
        if G.directed ∧ 0 < n then
          let u := n - 1
          let s1 := (adj.getD u []).foldl
            (fun s p => if s.1.getD p.1 true = false then dfsCollect adj n p.1 s else s)
            (st.1.set u true, [u])
          Except.ok (s1.1, st.2 ++ [sortNat s1.2])
        else Except.error PyErr.unboundLocalError
      else Except.ok st)
    (List.replicate n false, [])).map
    (fun st => List.insertionSort (fun a b => a.headD 0 ≤ b.headD 0) st.2)

/-- One record of `components_with_stats`. -/
structure CompStat where
  vertices : List Nat
  node_count : Nat
  edge_count : Nat
  smallest_vertex : Nat
deriving Repr, DecidableEq

/-- The `v2c` dict of `components_with_stats` (algorithmics.py, lines
216-219): later assignments win, so a vertex maps to the index of the last
enumerated component containing it; a missing key is Python's `KeyError`. -/
def v2c (comps : List (List Nat)) (v : Nat) : Option Nat :=
  (comps.enum.reverse.find? (fun ic => v ∈ ic.2)).map (fun ic => ic.1)

/-- Sort key comparison of `components_with_stats`:
`(-node_count, -edge_count, smallest_vertex)` compared lexicographically. -/
def statKeyLe (a b : CompStat) : Prop :=
  (-(a.node_count : ℤ), -(a.edge_count : ℤ), (a.smallest_vertex : ℤ)) ≤
    (-(b.node_count : ℤ), -(b.edge_count : ℤ), (b.smallest_vertex : ℤ))

instance : DecidableRel statKeyLe := by
  intro a b
  unfold statKeyLe
  infer_instance

/-- `GraphAlgorithms.components_with_stats` (algorithmics.py, lines 172-248):
obtain the components (propagating their error), count internal edges
(directed: every stored arc inside one component; undirected: each `u < v`
normalised pair once via the `counted` set), assemble one record per
component and stable-sort by `(-node_count, -edge_count, smallest_vertex)`. -/
def components_with_stats (G : Graph) : Except PyErr (List CompStat) := do
  let comps ← connected_components G
  let adj := get_adjacency_list G
  let ce0 : List Nat := List.replicate comps.length 0
  let comp_edges ←
    if G.directed then
      (List.range G.vertices).foldlM
        (fun (ce : List Nat) u =>
          (adj.getD u []).foldlM
            (fun ce p => do
              let cu ← (v2c comps u).elim (Except.error PyErr.keyError) Except.ok
              let cv ← (v2c comps p.1).elim (Except.error PyErr.keyError) Except.ok
              if cu = cv then pure (ce.set cu (ce.getD cu 0 + 1)) else pure ce)
            ce)
        ce0
    else
      (do
        let st ← (List.range G.vertices).foldlM
          (fun (st : List (Nat × Nat) × List Nat) u =>
            (adj.getD u []).foldlM
              (fun (st : List (Nat × Nat) × List Nat) p => do
                let cu ← (v2c comps u).elim (Except.error PyErr.keyError) Except.ok
                let cv ← (v2c comps p.1).elim (Except.error PyErr.keyError) Except.ok
                if cu = cv then
                  let e := (min u p.1, max u p.1)
                  if e ∉ st.1 then pure (st.1 ++ [e], st.2.set cu (st.2.getD cu 0 + 1))
                  else pure st
                else pure st)
              st)
          ([], ce0)
        pure st.2)
  let stats := comps.enum.map
    (fun ic =>
      { vertices := ic.2, node_count := ic.2.length,
        edge_count := comp_edges.getD ic.1 0,
        smallest_vertex := ic.2.headD 0 : CompStat })
  pure (List.insertionSort (fun a b => statKeyLe a b) stats)

/-- `GraphFactory.from_adjacency_matrix` (graph_factory.py, lines 36-88):
reject an empty or non-square matrix, a non-zero diagonal, and (for
undirected graphs) asymmetry, all with `ValueError`; treat the graph as
weighted iff some non-zero entry differs from 1.0; then insert every
non-zero off-diagonal entry (directed) or every non-zero entry with
`i < j` (undirected) through the chosen variant's `add_edge`. -/
def from_adjacency_matrix (matrix : List (List ℚ)) (directed : Bool) :
    Except PyErr Graph :=
  if matrix = [] then .error .valueError
  else
    let n := matrix.length
    if ¬ matrix.all (fun row => row.length = n) then .error .valueError
    else if ¬ (List.range n).all (fun i => mget matrix i i = 0) then .error .valueError
    else if directed = false ∧
        ¬ (List.range n).all (fun i => (List.range n).all (fun j => mget matrix i j = mget matrix j i)) then
      .error .valueError
    else
      let weighted := (List.range n).any
        (fun i => (List.range n).any (fun j => mget matrix i j ≠ 0 ∧ mget matrix i j ≠ 1))
      let g0 := initGraph n directed weighted
      if directed then
        (List.range n).foldlM
          (fun g i =>
            (List.range n).foldlM
              (fun g j =>
                if i ≠ j ∧ mget matrix i j ≠ 0 then addEdge g i j (mget matrix i j) else pure g)
              g)
          g0
      else
        (List.range n).foldlM
          (fun g i =>
            (pyRange (i + 1) n).foldlM
              (fun g j =>
                if mget matrix i j ≠ 0 then addEdge g i j (mget matrix i j) else pure g)
              g)
          g0

/-- `GraphFactory.from_edges` (graph_factory.py, lines 91-139): reject a
negative vertex count (`ValueError`); treat the graph as weighted iff some
listed weight differs from 1.0; then for each `(u, v, w)` in order reject an
out-of-range endpoint (`IndexError`) or a self-loop (`ValueError`) and
otherwise insert through the chosen variant's `add_edge`.  (The Python
`edges is None` guard has no counterpart: a Lean list is never `None`.) -/
def from_edges (vertices : Int) (edges : List (Nat × Nat × ℚ)) (directed : Bool) :
    Except PyErr Graph :=
  if vertices < 0 then .error .valueError
  else
    let n := vertices.toNat
    let weighted := edges.any (fun e => e.2.2 ≠ 1)
    edges.foldlM
      (fun g e =>
        if ¬ (e.1 < n ∧ e.2.1 < n) then .error .indexError
        else if e.1 = e.2.1 then .error .valueError
        else addEdge g e.1 e.2.1 e.2.2)
      (initGraph n directed weighted)

/-- First-match lookup of a neighbour's weight in an adjacency row
(the semantics of scanning a row for a given neighbour id). -/
def lookupW : List (Nat × ℚ) → Nat → Option ℚ
  | [], _ => none
  | (a, w) :: l, v => if a = v then some w else lookupW l v

/-- The data-model invariants of §3 of the specification: every row exists,
no self-loops, undirected symmetry with equal weight, each neighbour at most
once per row, and (fixed-weight variant) every stored weight is 1.0.
Rows of vertices `≥ vertices` read as `[]`, so quantifiers run over all
naturals. -/
def Wf (G : Graph) : Prop :=
  G.adj.length = G.vertices ∧
  (∀ u, ∀ p ∈ getAdj G u, p.1 < G.vertices ∧ p.1 ≠ u) ∧
  (∀ u, ((getAdj G u).map Prod.fst).Nodup) ∧
  (G.directed = false → ∀ u v w, (v, w) ∈ getAdj G u ↔ (u, w) ∈ getAdj G v) ∧
  (G.weighted = false → ∀ u, ∀ p ∈ getAdj G u, p.2 = 1)

/-- Graph states reachable from construction by successful `add_edge` calls
(each instance dispatches to its own variant's policy, see `addEdge`). -/
inductive Reachable : Graph → Prop where
  | init (n : Nat) (d w : Bool) : Reachable (initGraph n d w)
  | step {G : Graph} (u v : Nat) (w : ℚ) {G' : Graph} :
      Reachable G → addEdge G u v w = .ok G' → Reachable G'

/-- All stored weights are non-zero (an adjacency matrix can only represent
such graphs). -/
def WNZ (G : Graph) : Prop :=
  ∀ u, ∀ p ∈ getAdj G u, p.2 ≠ 0

/-- Whether the adjacency stores an arc `u → v`. -/
def hasArc (G : Graph) (u v : Nat) : Bool :=
  (getAdj G u).any (fun p => p.1 = v)

/-- Modelled from the spec (§3, incidence-matrix export): the distinct
directed edges `(u, v)` in lexicographic order. -/
def specEdgesDirected (G : Graph) : List (Nat × Nat) :=
  ((List.range G.vertices).map
    (fun u => ((List.range G.vertices).filter (fun v => hasArc G u v)).map (fun v => (u, v)))).flatten

/-- Modelled from the spec (§3, incidence-matrix export): the distinct
undirected edges as pairs `(min, max)` in lexicographic order. -/
def specEdgesUndirected (G : Graph) : List (Nat × Nat) :=
  ((List.range G.vertices).map
    (fun u =>
      ((List.range G.vertices).filter (fun v => decide (u < v) && hasArc G u v)).map
        (fun v => (u, v)))).flatten

/-- The deterministically ordered edge list the specification prescribes for
the incidence matrix. -/
def specEdges (G : Graph) : List (Nat × Nat) :=
  if G.directed then specEdgesDirected G else specEdgesUndirected G

/-- Modelled from the spec (§3): the incidence matrix is `vertexCount` rows by
one column per distinct edge in the deterministic order, each column holding
`-1` at the source row and `+1` at the target row (directed) or `+1` at both
endpoint rows (undirected), `0` elsewhere. -/
def specIncidence (G : Graph) : List (List ℤ) :=
  let edges := specEdges G
  (List.range G.vertices).map
    (fun r =>
      edges.map
        (fun e =>
          if G.directed then (if r = e.1 then -1 else if r = e.2 then 1 else 0)
          else (if r = e.1 ∨ r = e.2 then 1 else 0)))

/-- The weight the adjacency matrix reports for the cell `(u, v)`:
the stored weight (or 1.0 for the fixed-weight variant) when the arc exists,
0.0 otherwise. -/
def edgeVal (G : Graph) (u v : Nat) : ℚ :=
  match lookupW (getAdj G u) v with
  | some w => if G.weighted then w else 1
  | none => 0

/-- Strict lexicographic comparison of vertex pairs. -/
def lexLt (e f : Nat × Nat) : Prop :=
  e.1 < f.1 ∨ (e.1 = f.1 ∧ e.2 < f.2)

/-- The result of the mutation part of `UnweightedGraph.add_edge` once
validation has passed. -/
def stepU (G : Graph) (u v : Nat) : Graph :=
  let G1 := if (v, (1 : ℚ)) ∈ getAdj G u then G else setAdj G u (getAdj G u ++ [(v, 1)])
  if G.directed then G1
  else if (u, (1 : ℚ)) ∈ getAdj G1 v then G1 else setAdj G1 v (getAdj G1 v ++ [(u, 1)])

/-- The result of the mutation part of `WeightedGraph.add_edge` once
validation has passed. -/
def stepW (G : Graph) (u v : Nat) (w : ℚ) : Graph :=
  let G1 := setAdj G u (setEntry (getAdj G u) v w)
  if G.directed then G1 else setAdj G1 v (setEntry (getAdj G1 v) u w)

/-- A rectangular list-of-lists shape: `rows` rows, each of length `cols`. -/
def RectShape {α : Type} (m : List (List α)) (rows cols : Nat) : Prop :=
  m.length = rows ∧ ∀ row ∈ m, row.length = cols

/-!  ## Basic facts about the adjacency storage -/

theorem getAdj_initGraph (n : Nat) (d w : Bool) (u : Nat) :
    getAdj (initGraph n d w) u = [] := by
  simp [getAdj, initGraph, List.getD_eq_getElem?_getD, List.getElem?_replicate]
  split <;> rfl

theorem vertices_initGraph (n : Nat) (d w : Bool) : (initGraph n d w).vertices = n := rfl

theorem directed_initGraph (n : Nat) (d w : Bool) : (initGraph n d w).directed = d := rfl

theorem weighted_initGraph (n : Nat) (d w : Bool) : (initGraph n d w).weighted = w := rfl

theorem getAdj_setAdj (G : Graph) (x : Nat) (r : List (Nat × ℚ)) (y : Nat) :
    getAdj (setAdj G x r) y = if x = y ∧ x < G.adj.length then r else getAdj G y := by
  simp only [getAdj, setAdj, List.getD_eq_getElem?_getD, List.getElem?_set]
  by_cases hxy : x = y
  · subst hxy
    by_cases hx : x < G.adj.length
    · simp [hx]
    · simp [hx, List.getElem?_eq_none (le_of_not_lt hx)]
  · simp [hxy]

theorem vertices_setAdj (G : Graph) (x : Nat) (r : List (Nat × ℚ)) :
    (setAdj G x r).vertices = G.vertices := rfl

theorem directed_setAdj (G : Graph) (x : Nat) (r : List (Nat × ℚ)) :
    (setAdj G x r).directed = G.directed := rfl

theorem weighted_setAdj (G : Graph) (x : Nat) (r : List (Nat × ℚ)) :
    (setAdj G x r).weighted = G.weighted := rfl

theorem adj_length_setAdj (G : Graph) (x : Nat) (r : List (Nat × ℚ)) :
    (setAdj G x r).adj.length = G.adj.length := by
  simp [setAdj]

/-!  ## `setEntry` (the `_set_edge` helper) -/

theorem setEntry_map_fst (l : List (Nat × ℚ)) (v : Nat) (w : ℚ) :
    (setEntry l v w).map Prod.fst =
      if v ∈ l.map Prod.fst then l.map Prod.fst else l.map Prod.fst ++ [v] := by
  induction l with
  | nil => simp [setEntry]
  | cons p rest ih =>
      obtain ⟨a, b⟩ := p
      by_cases hav : a = v
      · subst hav
        simp [setEntry]
      · simp only [setEntry, if_neg hav, List.map_cons, ih]
        by_cases hv : v ∈ rest.map Prod.fst
        · simp [hv, hav, Ne.symm hav]
        · simp [hv, hav, Ne.symm hav]

theorem setEntry_length (l : List (Nat × ℚ)) (v : Nat) (w : ℚ) :
    (setEntry l v w).length =
      if v ∈ l.map Prod.fst then l.length else l.length + 1 := by
  have h := congrArg List.length (setEntry_map_fst l v w)
  simp only [List.length_map] at h
  rw [h]
  split <;> simp

theorem lookupW_setEntry_self (l : List (Nat × ℚ)) (v : Nat) (w : ℚ) :
    lookupW (setEntry l v w) v = some w := by
  induction l with
  | nil => simp [setEntry, lookupW]
  | cons p rest ih =>
      obtain ⟨a, b⟩ := p
      by_cases hav : a = v
      · subst hav
        simp [setEntry, lookupW]
      · simp [setEntry, lookupW, hav, ih]

theorem lookupW_setEntry_ne (l : List (Nat × ℚ)) (v : Nat) (w : ℚ) (x : Nat) (hx : x ≠ v) :
    lookupW (setEntry l v w) x = lookupW l x := by
  induction l with
  | nil => simp [setEntry, lookupW, Ne.symm hx]
  | cons p rest ih =>
      obtain ⟨a, b⟩ := p
      by_cases hav : a = v
      · subst hav
        simp [setEntry, lookupW, Ne.symm hx]
      · simp only [setEntry, if_neg hav, lookupW]
        by_cases hax : a = x <;> simp [hax, ih]

theorem mem_setEntry_of_nodup (l : List (Nat × ℚ)) (v : Nat) (w : ℚ) (p : Nat × ℚ)
    (hnd : (l.map Prod.fst).Nodup) :
    p ∈ setEntry l v w ↔ p = (v, w) ∨ (p ∈ l ∧ p.1 ≠ v) := by
  induction l with
  | nil => simp [setEntry]
  | cons q rest ih =>
      obtain ⟨a, b⟩ := q
      simp only [List.map_cons, List.nodup_cons] at hnd
      obtain ⟨ha, hrest⟩ := hnd
      by_cases hav : a = v
      · subst hav
        have hse : setEntry ((a, b) :: rest) a w = (a, w) :: rest := by simp [setEntry]
        rw [hse]
        simp only [List.mem_cons]
        constructor
        · rintro (h | h)
          · exact Or.inl h
          · refine Or.inr ⟨Or.inr h, fun hc => ha ?_⟩
            simpa [← hc] using List.mem_map_of_mem Prod.fst h
        · rintro (h | ⟨h | h, hp⟩)
          · exact Or.inl h
          · exact absurd (by simp [h]) hp
          · exact Or.inr h
      · have hse : setEntry ((a, b) :: rest) v w = (a, b) :: setEntry rest v w := by
          simp [setEntry, hav]
        rw [hse]
        simp only [List.mem_cons, ih hrest]
        constructor
        · rintro (h | h | ⟨h, hp⟩)
          · exact Or.inr ⟨Or.inl h, by simp [h, hav]⟩
          · exact Or.inl h
          · exact Or.inr ⟨Or.inr h, hp⟩
        · rintro (h | ⟨h | h, hp⟩)
          · exact Or.inr (Or.inl h)
          · exact Or.inl h
          · exact Or.inr (Or.inr ⟨h, hp⟩)

/-!  ## `lookupW` -/

theorem lookupW_eq_none_iff (l : List (Nat × ℚ)) (v : Nat) :
    lookupW l v = none ↔ v ∉ l.map Prod.fst := by
  induction l with
  | nil => simp [lookupW]
  | cons p rest ih =>
      obtain ⟨a, b⟩ := p
      by_cases hav : a = v
      · subst hav
        simp [lookupW]
      · simp [lookupW, hav, ih, Ne.symm hav]

theorem lookupW_mem (l : List (Nat × ℚ)) (v : Nat) (w : ℚ) (h : lookupW l v = some w) :
    (v, w) ∈ l := by
  induction l with
  | nil => simp [lookupW] at h
  | cons p rest ih =>
      obtain ⟨a, b⟩ := p
      by_cases hav : a = v
      · subst hav
        have h2 : b = w := by simpa [lookupW] using h
        simp [h2]
      · simp only [lookupW, if_neg hav] at h
        exact List.mem_cons_of_mem _ (ih h)

theorem lookupW_eq_some_of_mem_of_nodup (l : List (Nat × ℚ)) (v : Nat) (w : ℚ)
    (hnd : (l.map Prod.fst).Nodup) (h : (v, w) ∈ l) : lookupW l v = some w := by
  induction l with
  | nil => simp at h
  | cons p rest ih =>
      obtain ⟨a, b⟩ := p
      simp only [List.map_cons, List.nodup_cons] at hnd
      rcases List.mem_cons.mp h with h | h
      · injection h with h1 h2
        subst h1
        subst h2
        simp [lookupW]
      · have hav : a ≠ v := by
          intro hc
          subst hc
          exact hnd.1 (by simpa using List.mem_map_of_mem Prod.fst h)
        simp [lookupW, hav, ih hnd.2 h]

theorem lookupW_eq_some_iff_of_nodup (l : List (Nat × ℚ)) (v : Nat) (w : ℚ)
    (hnd : (l.map Prod.fst).Nodup) : lookupW l v = some w ↔ (v, w) ∈ l :=
  ⟨lookupW_mem l v w, lookupW_eq_some_of_mem_of_nodup l v w hnd⟩

theorem lookupW_append_right (l1 l2 : List (Nat × ℚ)) (v : Nat)
    (h : v ∉ l1.map Prod.fst) : lookupW (l1 ++ l2) v = lookupW l2 v := by
  induction l1 with
  | nil => simp
  | cons p rest ih =>
      obtain ⟨a, b⟩ := p
      simp only [List.map_cons, List.mem_cons, not_or] at h
      simp [lookupW, Ne.symm h.1, ih h.2]

/-!  ## Success and failure of `add_edge` -/

theorem addEdgeUnweighted_eq_ok (G : Graph) (u v : Nat) (w : ℚ)
    (hu : u < G.vertices) (hv : v < G.vertices) (hne : u ≠ v) :
    addEdgeUnweighted G u v w = .ok (stepU G u v) := by
  simp [addEdgeUnweighted, stepU, hu, hv, hne]

theorem addEdgeWeighted_eq_ok (G : Graph) (u v : Nat) (w : ℚ)
    (hu : u < G.vertices) (hv : v < G.vertices) (hne : u ≠ v) :
    addEdgeWeighted G u v w = .ok (stepW G u v w) := by
  simp [addEdgeWeighted, stepW, hu, hv, hne]

theorem addEdgeUnweighted_err (G : Graph) (u v : Nat) (w : ℚ) :
    (¬ (u < G.vertices ∧ v < G.vertices) → addEdgeUnweighted G u v w = .error .indexError) ∧
    (u < G.vertices → v < G.vertices → u = v → addEdgeUnweighted G u v w = .error .valueError) := by
  constructor
  · intro h
    by_cases hu : u < G.vertices
    · have hv : ¬ v < G.vertices := fun hv => h ⟨hu, hv⟩
      simp [addEdgeUnweighted, hu, hv]
    · simp [addEdgeUnweighted, hu]
  · intro hu hv he
    simp [addEdgeUnweighted, hu, hv, he]

theorem addEdgeWeighted_err (G : Graph) (u v : Nat) (w : ℚ) :
    (¬ (u < G.vertices ∧ v < G.vertices) → addEdgeWeighted G u v w = .error .indexError) ∧
    (u < G.vertices → v < G.vertices → u = v → addEdgeWeighted G u v w = .error .valueError) := by
  constructor
  · intro h
    by_cases hu : u < G.vertices
    · have hv : ¬ v < G.vertices := fun hv => h ⟨hu, hv⟩
      simp [addEdgeWeighted, hu, hv]
    · simp [addEdgeWeighted, hu]
  · intro hu hv he
    simp [addEdgeWeighted, hu, hv, he]

/-!  ## Row-level description of the two mutation steps -/

theorem stepU_fields (G : Graph) (u v : Nat) :
    (stepU G u v).vertices = G.vertices ∧ (stepU G u v).directed = G.directed ∧
    (stepU G u v).weighted = G.weighted ∧ (stepU G u v).adj.length = G.adj.length := by
  unfold stepU setAdj
  dsimp only
  split <;> split <;> first
    | exact ⟨rfl, rfl, rfl, by simp⟩
    | (split <;> exact ⟨rfl, rfl, rfl, by simp⟩)

theorem stepW_fields (G : Graph) (u v : Nat) (w : ℚ) :
    (stepW G u v w).vertices = G.vertices ∧ (stepW G u v w).directed = G.directed ∧
    (stepW G u v w).weighted = G.weighted ∧ (stepW G u v w).adj.length = G.adj.length := by
  unfold stepW setAdj
  dsimp only
  split <;> exact ⟨rfl, rfl, rfl, by simp⟩

theorem stepU_rows (G : Graph) (u v : Nat) (hlen : G.adj.length = G.vertices)
    (hu : u < G.vertices) (hv : v < G.vertices) (hne : u ≠ v) :
    getAdj (stepU G u v) u =
      (if (v, (1 : ℚ)) ∈ getAdj G u then getAdj G u else getAdj G u ++ [(v, 1)]) ∧
    getAdj (stepU G u v) v =
      (if G.directed then getAdj G v
       else if (u, (1 : ℚ)) ∈ getAdj G v then getAdj G v else getAdj G v ++ [(u, 1)]) ∧
    (∀ x, x ≠ u → x ≠ v → getAdj (stepU G u v) x = getAdj G x) := by
  have hul : u < G.adj.length := hlen ▸ hu
  have hvl : v < G.adj.length := hlen ▸ hv
  unfold stepU
  dsimp only
  by_cases hmem : (v, (1 : ℚ)) ∈ getAdj G u
  · rw [if_pos hmem]
    by_cases hd : G.directed
    · rw [if_pos hd]
      exact ⟨by simp [hmem], by simp [hd], fun x _ _ => rfl⟩
    · rw [if_neg hd]
      by_cases hmv : (u, (1 : ℚ)) ∈ getAdj G v
      · rw [if_pos hmv]
        exact ⟨by simp [hmem], by simp [hd, hmv], fun x _ _ => rfl⟩
      · rw [if_neg hmv]
        refine ⟨?_, ?_, ?_⟩
        · rw [getAdj_setAdj]
          simp [Ne.symm hne, hmem]
        · rw [getAdj_setAdj]
          simp [hvl, hd, hmv]
        · intro x hxu hxv
          rw [getAdj_setAdj]
          simp [Ne.symm hxv]
  · rw [if_neg hmem]
    have hrowu : getAdj (setAdj G u (getAdj G u ++ [(v, 1)])) u = getAdj G u ++ [(v, 1)] := by
      rw [getAdj_setAdj]; simp [hul]
    have hrowv : getAdj (setAdj G u (getAdj G u ++ [(v, 1)])) v = getAdj G v := by
      rw [getAdj_setAdj]; simp [hne]
    have hrowx : ∀ x, x ≠ u → getAdj (setAdj G u (getAdj G u ++ [(v, 1)])) x = getAdj G x := by
      intro x hxu
      rw [getAdj_setAdj]; simp [Ne.symm hxu]
    rw [hrowv]
    by_cases hd : G.directed
    · rw [if_pos hd]
      exact ⟨by simp [hrowu, hmem], by simp [hd, hrowv], fun x hxu _ => hrowx x hxu⟩
    · rw [if_neg hd]
      by_cases hmv : (u, (1 : ℚ)) ∈ getAdj G v
      · rw [if_pos hmv]
        exact ⟨by simp [hrowu, hmem], by simp [hd, hmv, hrowv], fun x hxu _ => hrowx x hxu⟩
      · rw [if_neg hmv]
        have hlen2 : (setAdj G u (getAdj G u ++ [(v, 1)])).adj.length = G.adj.length :=
          adj_length_setAdj ..
        refine ⟨?_, ?_, ?_⟩
        · rw [getAdj_setAdj]
          simp [Ne.symm hne, hrowu, hmem]
        · rw [getAdj_setAdj]
          simp [hlen2 ▸ hvl, hd, hmv, hrowv]
        · intro x hxu hxv
          rw [getAdj_setAdj]
          simp [Ne.symm hxv, hrowx x hxu]

theorem stepW_rows (G : Graph) (u v : Nat) (w : ℚ) (hlen : G.adj.length = G.vertices)
    (hu : u < G.vertices) (hv : v < G.vertices) (hne : u ≠ v) :
    getAdj (stepW G u v w) u = setEntry (getAdj G u) v w ∧
    getAdj (stepW G u v w) v =
      (if G.directed then getAdj G v else setEntry (getAdj G v) u w) ∧
    (∀ x, x ≠ u → x ≠ v → getAdj (stepW G u v w) x = getAdj G x) := by
  have hul : u < G.adj.length := hlen ▸ hu
  have hvl : v < G.adj.length := hlen ▸ hv
  unfold stepW
  dsimp only
  have hrowu : getAdj (setAdj G u (setEntry (getAdj G u) v w)) u = setEntry (getAdj G u) v w := by
    rw [getAdj_setAdj]; simp [hul]
  have hrowv : getAdj (setAdj G u (setEntry (getAdj G u) v w)) v = getAdj G v := by
    rw [getAdj_setAdj]; simp [hne]
  have hrowx : ∀ x, x ≠ u → getAdj (setAdj G u (setEntry (getAdj G u) v w)) x = getAdj G x := by
    intro x hxu
    rw [getAdj_setAdj]; simp [Ne.symm hxu]
  by_cases hd : G.directed
  · rw [if_pos hd]
    exact ⟨hrowu, by simp [hd, hrowv], fun x hxu _ => hrowx x hxu⟩
  · simp only [hd, Bool.false_eq_true, if_false]
    have hlen2 : (setAdj G u (setEntry (getAdj G u) v w)).adj.length = G.adj.length :=
      adj_length_setAdj ..
    refine ⟨?_, ?_, ?_⟩
    · rw [getAdj_setAdj]
      simp [Ne.symm hne, hrowu]
    · rw [getAdj_setAdj]
      simp [hlen2 ▸ hvl, hrowv]
    · intro x hxu hxv
      rw [getAdj_setAdj]
      simp [Ne.symm hxv, hrowx x hxu]

theorem addEdgeUnweighted_ok_inv (G : Graph) (u v : Nat) (w : ℚ) (G' : Graph)
    (h : addEdgeUnweighted G u v w = .ok G') :
    u < G.vertices ∧ v < G.vertices ∧ u ≠ v ∧ G' = stepU G u v := by
  by_cases hu : u < G.vertices
  · by_cases hv : v < G.vertices
    · by_cases hne : u = v
      · rw [(addEdgeUnweighted_err G u v w).2 hu hv hne] at h
        exact absurd h (by simp)
      · rw [addEdgeUnweighted_eq_ok G u v w hu hv hne] at h
        exact ⟨hu, hv, hne, (Except.ok.injEq .. ▸ h).symm⟩
    · rw [(addEdgeUnweighted_err G u v w).1 (fun hc => hv hc.2)] at h
      exact absurd h (by simp)
  · rw [(addEdgeUnweighted_err G u v w).1 (fun hc => hu hc.1)] at h
    exact absurd h (by simp)

theorem addEdgeWeighted_ok_inv (G : Graph) (u v : Nat) (w : ℚ) (G' : Graph)
    (h : addEdgeWeighted G u v w = .ok G') :
    u < G.vertices ∧ v < G.vertices ∧ u ≠ v ∧ G' = stepW G u v w := by
  by_cases hu : u < G.vertices
  · by_cases hv : v < G.vertices
    · by_cases hne : u = v
      · rw [(addEdgeWeighted_err G u v w).2 hu hv hne] at h
        exact absurd h (by simp)
      · rw [addEdgeWeighted_eq_ok G u v w hu hv hne] at h
        exact ⟨hu, hv, hne, (Except.ok.injEq .. ▸ h).symm⟩
    · rw [(addEdgeWeighted_err G u v w).1 (fun hc => hv hc.2)] at h
      exact absurd h (by simp)
  · rw [(addEdgeWeighted_err G u v w).1 (fun hc => hu hc.1)] at h
    exact absurd h (by simp)

/-!  ## Membership description of a successful insertion -/

theorem stepU_mem (G : Graph) (u v : Nat) (hlen : G.adj.length = G.vertices)
    (hu : u < G.vertices) (hv : v < G.vertices) (hne : u ≠ v) (y : Nat) (p : Nat × ℚ) :
    p ∈ getAdj (stepU G u v) y ↔
      p ∈ getAdj G y ∨ (y = u ∧ p = (v, 1)) ∨
        (G.directed = false ∧ y = v ∧ p = (u, 1)) := by
  obtain ⟨hru, hrv, hrx⟩ := stepU_rows G u v hlen hu hv hne
  by_cases hyu : y = u
  · subst hyu
    rw [hru]
    by_cases hmem : (v, (1 : ℚ)) ∈ getAdj G y
    · rw [if_pos hmem]
      constructor
      · intro h
        exact Or.inl h
      · rintro (h | ⟨_, h⟩ | ⟨_, hyv, _⟩)
        · exact h
        · exact h ▸ hmem
        · exact absurd hyv hne
    · rw [if_neg hmem]
      simp only [List.mem_append, List.mem_singleton]
      constructor
      · rintro (h | h)
        · exact Or.inl h
        · exact Or.inr (Or.inl (by simp [h]))
      · rintro (h | ⟨_, h⟩ | ⟨_, hyv, _⟩)
        · exact Or.inl h
        · exact Or.inr h
        · exact absurd hyv hne
  · by_cases hyv : y = v
    · subst hyv
      rw [hrv]
      by_cases hd : G.directed
      · rw [if_pos hd]
        constructor
        · intro h
          exact Or.inl h
        · rintro (h | ⟨hyu2, _⟩ | ⟨hd2, _, _⟩)
          · exact h
          · exact absurd hyu2 hyu
          · rw [hd] at hd2; exact absurd hd2 (by simp)
      · rw [if_neg hd]
        have hd2 : G.directed = false := Bool.not_eq_true _ ▸ hd
        by_cases hmv : (u, (1 : ℚ)) ∈ getAdj G y
        · rw [if_pos hmv]
          constructor
          · intro h
            exact Or.inl h
          · rintro (h | ⟨hyu2, _⟩ | ⟨_, _, h⟩)
            · exact h
            · exact absurd hyu2 hyu
            · exact h ▸ hmv
        · rw [if_neg hmv]
          simp only [List.mem_append, List.mem_singleton]
          constructor
          · rintro (h | h)
            · exact Or.inl h
            · exact Or.inr (Or.inr (by simp [hd2, h]))
          · rintro (h | ⟨hyu2, _⟩ | ⟨_, _, h⟩)
            · exact Or.inl h
            · exact absurd hyu2 hyu
            · exact Or.inr h
    · rw [hrx y hyu hyv]
      constructor
      · intro h
        exact Or.inl h
      · rintro (h | ⟨hyu2, _⟩ | ⟨_, hyv2, _⟩)
        · exact h
        · exact absurd hyu2 hyu
        · exact absurd hyv2 hyv

theorem stepW_mem (G : Graph) (u v : Nat) (w : ℚ) (hlen : G.adj.length = G.vertices)
    (hnd : ∀ x, ((getAdj G x).map Prod.fst).Nodup)
    (hu : u < G.vertices) (hv : v < G.vertices) (hne : u ≠ v) (y : Nat) (p : Nat × ℚ) :
    p ∈ getAdj (stepW G u v w) y ↔
      (p ∈ getAdj G y ∧ ¬(y = u ∧ p.1 = v) ∧ ¬(G.directed = false ∧ y = v ∧ p.1 = u)) ∨
        (y = u ∧ p = (v, w)) ∨ (G.directed = false ∧ y = v ∧ p = (u, w)) := by
  obtain ⟨hru, hrv, hrx⟩ := stepW_rows G u v w hlen hu hv hne
  by_cases hyu : y = u
  · subst hyu
    rw [hru, mem_setEntry_of_nodup _ _ _ _ (hnd y)]
    constructor
    · rintro (h | ⟨h, hp⟩)
      · exact Or.inr (Or.inl (by simp [h]))
      · exact Or.inl ⟨h, fun hc => hp hc.2, fun hc => absurd hc.2.1 (by omega)⟩
    · rintro (⟨h, hp, _⟩ | ⟨_, h⟩ | ⟨_, hyv, _⟩)
      · exact Or.inr ⟨h, fun hc => hp ⟨rfl, hc⟩⟩
      · exact Or.inl h
      · exact absurd hyv hne
  · by_cases hyv : y = v
    · subst hyv
      rw [hrv]
      by_cases hd : G.directed
      · rw [if_pos hd]
        constructor
        · intro h
          exact Or.inl ⟨h, fun hc => hyu hc.1, fun hc => by rw [hd] at hc; exact absurd hc.1 (by simp)⟩
        · rintro (⟨h, _, _⟩ | ⟨hyu2, _⟩ | ⟨hd2, _, _⟩)
          · exact h
          · exact absurd hyu2 hyu
          · rw [hd] at hd2; exact absurd hd2 (by simp)
      · rw [if_neg hd]
        have hd2 : G.directed = false := Bool.not_eq_true _ ▸ hd
        rw [mem_setEntry_of_nodup _ _ _ _ (hnd y)]
        constructor
        · rintro (h | ⟨h, hp⟩)
          · exact Or.inr (Or.inr (by simp [hd2, h]))
          · exact Or.inl ⟨h, fun hc => absurd hc.1 hyu, fun hc => hp hc.2.2⟩
        · rintro (⟨h, _, hp⟩ | ⟨hyu2, _⟩ | ⟨_, _, h⟩)
          · exact Or.inr ⟨h, fun hc => hp ⟨hd2, rfl, hc⟩⟩
          · exact absurd hyu2 hyu
          · exact Or.inl h
    · rw [hrx y hyu hyv]
      constructor
      · intro h
        exact Or.inl ⟨h, fun hc => hyu hc.1, fun hc => hyv hc.2.1⟩
      · rintro (⟨h, _, _⟩ | ⟨hyu2, _⟩ | ⟨_, hyv2, _⟩)
        · exact h
        · exact absurd hyu2 hyu
        · exact absurd hyv2 hyv

/-!  ## Preservation of the data-model invariants -/

theorem wf_initGraph (n : Nat) (d w : Bool) : Wf (initGraph n d w) := by
  refine ⟨by simp [initGraph], ?_, ?_, ?_, ?_⟩ <;>
    simp [getAdj_initGraph]

theorem mem_fst_of_all_one (l : List (Nat × ℚ)) (hone : ∀ p ∈ l, p.2 = 1) (v : Nat)
    (h : v ∈ l.map Prod.fst) : (v, (1 : ℚ)) ∈ l := by
  rcases List.mem_map.mp h with ⟨p, hp, hfst⟩
  have := hone p hp
  obtain ⟨a, b⟩ := p
  simp only at hfst this
  rw [← hfst, ← this]
  exact hp

theorem wf_stepU (G : Graph) (u v : Nat) (hwf : Wf G) (hw : G.weighted = false)
    (hu : u < G.vertices) (hv : v < G.vertices) (hne : u ≠ v) : Wf (stepU G u v) := by
  obtain ⟨hlen, hrange, hnodup, hsym, hone⟩ := hwf
  obtain ⟨hfv, hfd, hfw, hfl⟩ := stepU_fields G u v
  have hmem := stepU_mem G u v hlen hu hv hne
  obtain ⟨hru, hrv, hrx⟩ := stepU_rows G u v hlen hu hv hne
  refine ⟨by rw [hfl, hfv, hlen], ?_, ?_, ?_, ?_⟩
  · intro y p hp
    rw [hfv]
    rcases (hmem y p).mp hp with h | ⟨hyu, hp2⟩ | ⟨_, hyv, hp2⟩
    · exact hrange y p h
    · subst hp2
      exact ⟨hv, hyu ▸ Ne.symm hne⟩
    · subst hp2
      exact ⟨hu, hyv ▸ hne⟩
  · intro y
    by_cases hyu : y = u
    · subst hyu
      rw [hru]
      by_cases hm : (v, (1 : ℚ)) ∈ getAdj G y
      · rw [if_pos hm]
        exact hnodup y
      · rw [if_neg hm]
        have hvn : v ∉ (getAdj G y).map Prod.fst :=
          fun hc => hm (mem_fst_of_all_one _ (hone hw y) v hc)
        simp [List.nodup_append, hnodup y, hvn]
    · by_cases hyv : y = v
      · subst hyv
        rw [hrv]
        by_cases hd : G.directed
        · rw [if_pos hd]
          exact hnodup y
        · rw [if_neg hd]
          by_cases hm : (u, (1 : ℚ)) ∈ getAdj G y
          · rw [if_pos hm]
            exact hnodup y
          · rw [if_neg hm]
            have hun : u ∉ (getAdj G y).map Prod.fst :=
              fun hc => hm (mem_fst_of_all_one _ (hone hw y) u hc)
            simp [List.nodup_append, hnodup y, hun]
      · rw [hrx y hyu hyv]
        exact hnodup y
  · intro hd a b w'
    rw [hfd] at hd
    rw [hmem a (b, w'), hmem b (a, w')]
    constructor
    · rintro (h | ⟨hau, hp⟩ | ⟨_, hav, hp⟩)
      · exact Or.inl ((hsym hd a b w').mp h)
      · injection hp with h1 h2
        exact Or.inr (Or.inr ⟨hd, h1, by rw [hau, h2]⟩)
      · injection hp with h1 h2
        exact Or.inr (Or.inl ⟨h1, by rw [hav, h2]⟩)
    · rintro (h | ⟨hbu, hp⟩ | ⟨_, hbv, hp⟩)
      · exact Or.inl ((hsym hd b a w').mp h)
      · injection hp with h1 h2
        exact Or.inr (Or.inr ⟨hd, h1, by rw [hbu, h2]⟩)
      · injection hp with h1 h2
        exact Or.inr (Or.inl ⟨h1, by rw [hbv, h2]⟩)
  · intro hw2 y p hp
    rw [hfw] at hw2
    rcases (hmem y p).mp hp with h | ⟨_, hp2⟩ | ⟨_, _, hp2⟩
    · exact hone hw2 y p h
    · simp [hp2]
    · simp [hp2]

theorem wf_stepW (G : Graph) (u v : Nat) (w : ℚ) (hwf : Wf G) (hw : G.weighted = true)
    (hu : u < G.vertices) (hv : v < G.vertices) (hne : u ≠ v) : Wf (stepW G u v w) := by
  obtain ⟨hlen, hrange, hnodup, hsym, hone⟩ := hwf
  obtain ⟨hfv, hfd, hfw, hfl⟩ := stepW_fields G u v w
  have hmem := stepW_mem G u v w hlen hnodup hu hv hne
  obtain ⟨hru, hrv, hrx⟩ := stepW_rows G u v w hlen hu hv hne
  refine ⟨by rw [hfl, hfv, hlen], ?_, ?_, ?_, ?_⟩
  · intro y p hp
    rw [hfv]
    rcases (hmem y p).mp hp with ⟨h, _, _⟩ | ⟨hyu, hp2⟩ | ⟨_, hyv, hp2⟩
    · exact hrange y p h
    · subst hp2
      exact ⟨hv, hyu ▸ Ne.symm hne⟩
    · subst hp2
      exact ⟨hu, hyv ▸ hne⟩
  · intro y
    by_cases hyu : y = u
    · subst hyu
      rw [hru, setEntry_map_fst]
      by_cases hm : v ∈ (getAdj G y).map Prod.fst
      · rw [if_pos hm]
        exact hnodup y
      · rw [if_neg hm]
        simp [List.nodup_append, hnodup y, hm]
    · by_cases hyv : y = v
      · subst hyv
        rw [hrv]
        by_cases hd : G.directed
        · rw [if_pos hd]
          exact hnodup y
        · rw [if_neg hd, setEntry_map_fst]
          by_cases hm : u ∈ (getAdj G y).map Prod.fst
          · rw [if_pos hm]
            exact hnodup y
          · rw [if_neg hm]
            simp [List.nodup_append, hnodup y, hm]
      · rw [hrx y hyu hyv]
        exact hnodup y
  · intro hd a b w'
    rw [hfd] at hd
    rw [hmem a (b, w'), hmem b (a, w')]
    constructor
    · rintro (⟨h, h2, h3⟩ | ⟨hau, hp⟩ | ⟨_, hav, hp⟩)
      · refine Or.inl ⟨(hsym hd a b w').mp h, ?_, ?_⟩
        · intro hc
          exact h3 ⟨hd, hc.2, hc.1⟩
        · intro hc
          exact h2 ⟨hc.2.2, hc.2.1⟩
      · injection hp with h1 h2
        exact Or.inr (Or.inr ⟨hd, h1, by rw [hau, h2]⟩)
      · injection hp with h1 h2
        exact Or.inr (Or.inl ⟨h1, by rw [hav, h2]⟩)
    · rintro (⟨h, h2, h3⟩ | ⟨hbu, hp⟩ | ⟨_, hbv, hp⟩)
      · refine Or.inl ⟨(hsym hd b a w').mp h, ?_, ?_⟩
        · intro hc
          exact h3 ⟨hd, hc.2, hc.1⟩
        · intro hc
          exact h2 ⟨hc.2.2, hc.2.1⟩
      · injection hp with h1 h2
        exact Or.inr (Or.inr ⟨hd, h1, by rw [hbu, h2]⟩)
      · injection hp with h1 h2
        exact Or.inr (Or.inl ⟨h1, by rw [hbv, h2]⟩)
  · intro hw2 y p hp
    rw [hfw, hw] at hw2
    exact absurd hw2 (by simp)

theorem addEdge_ok_inv (G : Graph) (u v : Nat) (w : ℚ) (G' : Graph)
    (h : addEdge G u v w = .ok G') :
    u < G.vertices ∧ v < G.vertices ∧ u ≠ v ∧
      ((G.weighted = true ∧ G' = stepW G u v w) ∨ (G.weighted = false ∧ G' = stepU G u v)) := by
  unfold addEdge at h
  by_cases hw : G.weighted
  · rw [if_pos hw] at h
    obtain ⟨hu, hv, hne, he⟩ := addEdgeWeighted_ok_inv G u v w G' h
    exact ⟨hu, hv, hne, Or.inl ⟨hw, he⟩⟩
  · rw [if_neg hw] at h
    obtain ⟨hu, hv, hne, he⟩ := addEdgeUnweighted_ok_inv G u v w G' h
    exact ⟨hu, hv, hne, Or.inr ⟨Bool.not_eq_true _ ▸ hw, he⟩⟩

theorem reachable_wf (G : Graph) (h : Reachable G) : Wf G := by
  induction h with
  | init n d w => exact wf_initGraph n d w
  | step u v w hr hok ih =>
      obtain ⟨hu, hv, hne, hcase⟩ := addEdge_ok_inv _ u v w _ hok
      rcases hcase with ⟨hw, he⟩ | ⟨hw, he⟩
      · exact he ▸ wf_stepW _ u v w ih hw hu hv hne
      · exact he ▸ wf_stepU _ u v ih hw hu hv hne

/-!  ## The adjacency matrix, entry by entry -/

theorem mget_replicate (n r c : Nat) :
    mget (List.replicate n (List.replicate n (0 : ℚ))) r c = 0 := by
  unfold mget
  have hrow : (List.replicate n (List.replicate n (0 : ℚ))).getD r [] =
      if r < n then List.replicate n (0 : ℚ) else [] := by
    rw [List.getD_eq_getElem?_getD, List.getElem?_replicate]
    split <;> rfl
  rw [hrow]
  split
  · rw [List.getD_eq_getElem?_getD, List.getElem?_replicate]
    split <;> rfl
  · rfl

theorem rectShape_replicate (n : Nat) :
    RectShape (List.replicate n (List.replicate n (0 : ℚ))) n n := by
  constructor
  · simp
  · intro row hrow
    simp [List.eq_of_mem_replicate hrow]

theorem getD_mem_of_lt {α : Type} (l : List α) (i : Nat) (d : α) (h : i < l.length) :
    l.getD i d ∈ l := by
  rw [List.getD_eq_getElem?_getD, List.getElem?_eq_getElem h]
  exact List.getElem_mem h

theorem rectShape_mset (m : List (List ℚ)) (n i j : Nat) (x : ℚ)
    (hs : RectShape m n n) : RectShape (mset m i j x) n n := by
  obtain ⟨h1, h2⟩ := hs
  refine ⟨by simp [mset, h1], ?_⟩
  intro row hrow
  by_cases hi : i < m.length
  · rcases List.mem_or_eq_of_mem_set hrow with h | h
    · exact h2 row h
    · rw [h, List.length_set]
      exact h2 _ (getD_mem_of_lt m i [] hi)
  · have hset : mset m i j x = m := by
      unfold mset
      exact List.set_eq_of_length_le (le_of_not_lt hi)
    rw [hset] at hrow
    exact h2 row hrow

theorem mget_mset (m : List (List ℚ)) (n : Nat) (hs : RectShape m n n)
    (i j : Nat) (hi : i < n) (hj : j < n) (x : ℚ) (r c : Nat) :
    mget (mset m i j x) r c = if r = i ∧ c = j then x else mget m r c := by
  obtain ⟨h1, h2⟩ := hs
  have hil : i < m.length := h1 ▸ hi
  have hrowlen : (m.getD i []).length = n := h2 _ (getD_mem_of_lt m i [] hil)
  have houter : ∀ y, (m.set i ((m.getD i []).set j x)).getD y [] =
      if y = i then (m.getD i []).set j x else m.getD y [] := by
    intro y
    by_cases hy : y = i
    · subst hy
      rw [List.getD_eq_getElem?_getD, List.getElem?_set_self hil]
      simp
    · rw [List.getD_eq_getElem?_getD, List.getElem?_set_ne (fun hx => hy hx.symm),
        ← List.getD_eq_getElem?_getD]
      simp [hy]
  unfold mget mset
  rw [houter]
  by_cases hr : r = i
  · rw [if_pos hr]
    by_cases hc : c = j
    · subst hc
      rw [List.getD_eq_getElem?_getD, List.getElem?_set_self (by omega), Option.getD_some]
      simp [hr]
    · rw [List.getD_eq_getElem?_getD, List.getElem?_set_ne (fun hx => hc hx.symm),
        ← List.getD_eq_getElem?_getD]
      subst hr
      simp [hc, mget]
  · rw [if_neg hr]
    simp [hr, mget]

theorem getAdj_of_ge (G : Graph) (hlen : G.adj.length = G.vertices) (r : Nat)
    (hr : G.vertices ≤ r) : getAdj G r = [] := by
  unfold getAdj
  rw [List.getD_eq_getElem?_getD, List.getElem?_eq_none (by omega)]
  rfl

theorem matrix_inner_fold_shape (wt : Bool) (u : Nat) (n : Nat) (l : List (Nat × ℚ))
    (m : List (List ℚ)) (hs : RectShape m n n) :
    RectShape (l.foldl (fun m p => mset m u p.1 (if wt then p.2 else 1)) m) n n := by
  induction l generalizing m with
  | nil => exact hs
  | cons p rest ih => exact ih _ (rectShape_mset m n u p.1 _ hs)

theorem matrix_inner_fold (wt : Bool) (u : Nat) (n : Nat) (hu : u < n)
    (l : List (Nat × ℚ)) (hnd : (l.map Prod.fst).Nodup) (hlt : ∀ p ∈ l, p.1 < n)
    (m : List (List ℚ)) (hs : RectShape m n n) (r c : Nat) :
    mget (l.foldl (fun m p => mset m u p.1 (if wt then p.2 else 1)) m) r c =
      (match lookupW l c with
       | some w => if r = u then (if wt then w else 1) else mget m r c
       | none => mget m r c) := by
  induction l generalizing m with
  | nil => simp [lookupW]
  | cons p rest ih =>
      obtain ⟨a, b⟩ := p
      simp only [List.map_cons, List.nodup_cons] at hnd
      have ha : a < n := hlt (a, b) (by simp)
      have hlt2 : ∀ q ∈ rest, q.1 < n := fun q hq => hlt q (List.mem_cons_of_mem _ hq)
      have hs2 : RectShape (mset m u a (if wt then b else 1)) n n :=
        rectShape_mset m n u a _ hs
      simp only [List.foldl_cons]
      rw [ih hnd.2 hlt2 _ hs2]
      by_cases hac : a = c
      · subst hac
        have hnone : lookupW rest a = none :=
          (lookupW_eq_none_iff rest a).mpr hnd.1
        rw [hnone]
        have hlk : lookupW ((a, b) :: rest) a = some b := by simp [lookupW]
        rw [hlk]
        rw [mget_mset m n hs u a hu ha _ r a]
        by_cases hr : r = u
        · simp [hr]
        · simp [hr]
      · have hlk : lookupW ((a, b) :: rest) c = lookupW rest c := by
          simp [lookupW, hac]
        rw [hlk]
        cases hcase : lookupW rest c with
        | some w =>
            by_cases hr : r = u
            · simp [hr]
            · rw [mget_mset m n hs u a hu ha _ r c]
              simp [hr]
        | none =>
            rw [mget_mset m n hs u a hu ha _ r c,
              if_neg (fun hc => hac hc.2.symm)]

theorem matrix_outer_fold (G : Graph) (n : Nat) (hn : n = G.vertices)
    (hnd : ∀ x, ((getAdj G x).map Prod.fst).Nodup)
    (hlt : ∀ x, ∀ p ∈ getAdj G x, p.1 < n)
    (us : List Nat) (hus : ∀ x ∈ us, x < n)
    (m : List (List ℚ)) (hs : RectShape m n n) (r c : Nat) :
    mget (us.foldl
      (fun m u => (getAdj G u).foldl
        (fun m p => mset m u p.1 (if G.weighted then p.2 else 1)) m) m) r c =
      (match lookupW (getAdj G r) c with
       | some w => if r ∈ us then (if G.weighted then w else 1) else mget m r c
       | none => mget m r c) := by
  induction us generalizing m with
  | nil => cases lookupW (getAdj G r) c <;> simp
  | cons u rest ih =>
      have hu : u < n := hus u (by simp)
      have hrest : ∀ x ∈ rest, x < n := fun x hx => hus x (List.mem_cons_of_mem _ hx)
      have hs2 : RectShape ((getAdj G u).foldl
          (fun m p => mset m u p.1 (if G.weighted then p.2 else 1)) m) n n :=
        matrix_inner_fold_shape G.weighted u n _ m hs
      simp only [List.foldl_cons]
      rw [ih hrest _ hs2]
      have hinner := matrix_inner_fold G.weighted u n hu (getAdj G u) (hnd u) (hlt u) m hs r c
      by_cases hru : r = u
      · subst hru
        cases hcase : lookupW (getAdj G r) c with
        | some w =>
            simp only [hcase] at hinner ⊢
            by_cases hrr : r ∈ rest
            · simp [hrr]
            · simp [hrr, hinner]
        | none =>
            simp only [hcase] at hinner ⊢
            exact hinner
      · have hstay : mget ((getAdj G u).foldl
            (fun m p => mset m u p.1 (if G.weighted then p.2 else 1)) m) r c = mget m r c := by
          rw [hinner]
          cases lookupW (getAdj G u) c <;> simp [hru]
        cases hcase : lookupW (getAdj G r) c with
        | some w =>
            rw [hstay]
            by_cases hrr : r ∈ rest
            · simp [hrr]
            · simp [hrr, hru]
        | none => exact hstay

theorem adjacency_matrix_shape (G : Graph) (hwf : Wf G) :
    RectShape (get_adjacency_matrix G) G.vertices G.vertices := by
  unfold get_adjacency_matrix
  dsimp only
  generalize hm : List.replicate G.vertices (List.replicate G.vertices (0 : ℚ)) = m0
  have hs : RectShape m0 G.vertices G.vertices := hm ▸ rectShape_replicate G.vertices
  clear hm
  induction (List.range G.vertices) generalizing m0 with
  | nil => exact hs
  | cons u rest ih =>
      simp only [List.foldl_cons]
      exact ih _ (matrix_inner_fold_shape G.weighted u _ _ _ hs)

theorem mget_adjacency_matrix (G : Graph) (hwf : Wf G) (r c : Nat) :
    mget (get_adjacency_matrix G) r c = edgeVal G r c := by
  obtain ⟨hlen, hrange, hnodup, _, _⟩ := hwf
  unfold get_adjacency_matrix
  dsimp only
  rw [matrix_outer_fold G G.vertices rfl hnodup
    (fun x p hp => (hrange x p hp).1) (List.range G.vertices)
    (fun x hx => List.mem_range.mp hx)
    _ (rectShape_replicate G.vertices) r c]
  unfold edgeVal
  cases hcase : lookupW (getAdj G r) c with
  | some w =>
      by_cases hr : r < G.vertices
      · simp [List.mem_range, hr]
      · rw [getAdj_of_ge G hlen r (le_of_not_lt hr)] at hcase
        simp [lookupW] at hcase
  | none => simp [mget_replicate]

/-!  ## The adjacency-list export -/

theorem mem_sortByFst (l : List (Nat × ℚ)) (p : Nat × ℚ) :
    p ∈ sortByFst l ↔ p ∈ l :=
  (List.perm_insertionSort _ l).mem_iff

theorem export_row (G : Graph) (y : Nat) (hy : y < G.vertices) :
    (get_adjacency_list G).getD y [] = sortByFst (getAdj G y) := by
  unfold get_adjacency_list
  rw [List.getD_eq_getElem?_getD, List.getElem?_map, List.getElem?_range hy]
  rfl

theorem export_row_of_ge (G : Graph) (y : Nat) (hy : G.vertices ≤ y) :
    (get_adjacency_list G).getD y [] = [] := by
  unfold get_adjacency_list
  rw [List.getD_eq_getElem?_getD, List.getElem?_eq_none (by simpa using hy)]
  rfl

/-!  ## Overwrite and no-op behaviour of repeated insertions -/

theorem setEntry_mem_self (l : List (Nat × ℚ)) (v : Nat) (w : ℚ) :
    (v, w) ∈ setEntry l v w := by
  induction l with
  | nil => simp [setEntry]
  | cons p rest ih =>
      obtain ⟨a, b⟩ := p
      by_cases hav : a = v
      · subst hav
        simp [setEntry]
      · simp [setEntry, hav, ih]

theorem setEntry_setEntry (l : List (Nat × ℚ)) (v : Nat) (w1 w2 : ℚ) :
    setEntry (setEntry l v w1) v w2 = setEntry l v w2 := by
  induction l with
  | nil => simp [setEntry]
  | cons p rest ih =>
      obtain ⟨a, b⟩ := p
      by_cases hav : a = v
      · subst hav
        simp [setEntry]
      · simp [setEntry, hav, ih]

theorem setAdj_setAdj_same (G : Graph) (x : Nat) (r1 r2 : List (Nat × ℚ)) :
    setAdj (setAdj G x r1) x r2 = setAdj G x r2 := by
  unfold setAdj
  simp [List.set_set]

theorem setAdj_comm (G : Graph) (x y : Nat) (r1 r2 : List (Nat × ℚ)) (h : x ≠ y) :
    setAdj (setAdj G x r1) y r2 = setAdj (setAdj G y r2) x r1 := by
  unfold setAdj
  simp [List.set_comm r1 r2 _ h]

theorem stepU_noop (G : Graph) (u v : Nat)
    (h1 : (v, (1 : ℚ)) ∈ getAdj G u) (h2 : G.directed = false → (u, (1 : ℚ)) ∈ getAdj G v) :
    stepU G u v = G := by
  unfold stepU
  rw [if_pos h1]
  by_cases hd : G.directed
  · rw [if_pos hd]
  · rw [if_neg hd, if_pos (h2 (Bool.not_eq_true _ ▸ hd))]

theorem stepW_eq_directed (G : Graph) (u v : Nat) (w : ℚ) (hd : G.directed = true) :
    stepW G u v w = setAdj G u (setEntry (getAdj G u) v w) := by
  unfold stepW
  rw [if_pos hd]

theorem stepW_eq_undirected (G : Graph) (u v : Nat) (w : ℚ) (hd : G.directed = false)
    (hne : u ≠ v) :
    stepW G u v w =
      setAdj (setAdj G u (setEntry (getAdj G u) v w)) v (setEntry (getAdj G v) u w) := by
  unfold stepW
  rw [if_neg (by simp [hd])]
  have h : getAdj (setAdj G u (setEntry (getAdj G u) v w)) v = getAdj G v := by
    rw [getAdj_setAdj, if_neg (fun hc => hne hc.1)]
  rw [h]

theorem stepW_stepW (G : Graph) (u v : Nat) (w1 w2 : ℚ)
    (hlen : G.adj.length = G.vertices) (hu : u < G.vertices) (hv : v < G.vertices)
    (hne : u ≠ v) :
    stepW (stepW G u v w1) u v w2 = stepW G u v w2 := by
  have hul : u < G.adj.length := hlen ▸ hu
  by_cases hd : G.directed
  · have hd1 : (setAdj G u (setEntry (getAdj G u) v w1)).directed = true := by
      rw [directed_setAdj]; exact hd
    rw [stepW_eq_directed G u v w1 hd, stepW_eq_directed _ u v w2 hd1,
      getAdj_setAdj, if_pos ⟨rfl, hul⟩, setEntry_setEntry, setAdj_setAdj_same,
      ← stepW_eq_directed G u v w2 hd]
  · have hd' : G.directed = false := by simpa using hd
    have hd1 : (setAdj (setAdj G u (setEntry (getAdj G u) v w1)) v
        (setEntry (getAdj G v) u w1)).directed = false := by
      rw [directed_setAdj, directed_setAdj]; exact hd'
    rw [stepW_eq_undirected G u v w1 hd' hne, stepW_eq_undirected _ u v w2 hd1 hne]
    have hrow_u : getAdj (setAdj (setAdj G u (setEntry (getAdj G u) v w1)) v
        (setEntry (getAdj G v) u w1)) u = setEntry (getAdj G u) v w1 := by
      rw [getAdj_setAdj, if_neg (fun hc => hne hc.1.symm), getAdj_setAdj, if_pos ⟨rfl, hul⟩]
    have hrow_v : getAdj (setAdj (setAdj G u (setEntry (getAdj G u) v w1)) v
        (setEntry (getAdj G v) u w1)) v = setEntry (getAdj G v) u w1 := by
      rw [getAdj_setAdj, if_pos ⟨rfl, by rw [adj_length_setAdj]; exact hlen ▸ hv⟩]
    rw [hrow_u, hrow_v, setEntry_setEntry, setEntry_setEntry,
      stepW_eq_undirected G u v w2 hd' hne]
    unfold setAdj
    dsimp only
    congr 1
    rw [List.set_comm _ _ _ (show v ≠ u from Ne.symm hne), List.set_set, List.set_set]

/-!  ## BFS: the enqueue fold and uniqueness of visits -/

theorem getD_set_true (vis : List Bool) (a : Nat) :
    ((vis.set a true).getD a true) = true := by
  by_cases ha : a < vis.length
  · rw [List.getD_eq_getElem?_getD, List.getElem?_set_self ha]
    rfl
  · rw [List.getD_eq_getElem?_getD, List.getElem?_eq_none (by simp; omega)]
    rfl

theorem getD_set_true_mono (vis : List Bool) (a x : Nat)
    (h : vis.getD x true = true) : (vis.set a true).getD x true = true := by
  by_cases hax : a = x
  · subst hax
    exact getD_set_true vis a
  · rw [List.getD_eq_getElem?_getD, List.getElem?_set_ne hax,
      ← List.getD_eq_getElem?_getD]
    exact h

theorem getD_set_true_false (vis : List Bool) (a x : Nat)
    (h : (vis.set a true).getD x true = false) : vis.getD x true = false := by
  by_cases hax : a = x
  · subst hax
    rw [getD_set_true vis a] at h
    exact absurd h (by simp)
  · rw [List.getD_eq_getElem?_getD, List.getElem?_set_ne hax,
      ← List.getD_eq_getElem?_getD] at h
    exact h

theorem bfs_enqueue_fold (l : List (Nat × ℚ)) (vis : List Bool) (q : List Nat)
    (hmark : ∀ x ∈ q, vis.getD x true = true) (hnd : q.Nodup) :
    (∀ x ∈ (l.foldl (fun (st : List Bool × List Nat) p =>
        if st.1.getD p.1 true = false then (st.1.set p.1 true, st.2 ++ [p.1]) else st)
        (vis, q)).2,
      (l.foldl (fun (st : List Bool × List Nat) p =>
        if st.1.getD p.1 true = false then (st.1.set p.1 true, st.2 ++ [p.1]) else st)
        (vis, q)).1.getD x true = true) ∧
    (l.foldl (fun (st : List Bool × List Nat) p =>
        if st.1.getD p.1 true = false then (st.1.set p.1 true, st.2 ++ [p.1]) else st)
        (vis, q)).2.Nodup ∧
    (∀ x ∈ (l.foldl (fun (st : List Bool × List Nat) p =>
        if st.1.getD p.1 true = false then (st.1.set p.1 true, st.2 ++ [p.1]) else st)
        (vis, q)).2, x ∈ q ∨ vis.getD x true = false) ∧
    (∀ x, (l.foldl (fun (st : List Bool × List Nat) p =>
        if st.1.getD p.1 true = false then (st.1.set p.1 true, st.2 ++ [p.1]) else st)
        (vis, q)).1.getD x true = false → vis.getD x true = false) := by
  induction l generalizing vis q with
  | nil =>
      exact ⟨hmark, hnd, fun x hx => Or.inl hx, fun x hx => hx⟩
  | cons p rest ih =>
      simp only [List.foldl_cons]
      by_cases hvis : vis.getD p.1 true = false
      · rw [if_pos hvis]
        have hmark2 : ∀ x ∈ q ++ [p.1], (vis.set p.1 true).getD x true = true := by
          intro x hx
          rcases List.mem_append.mp hx with hx | hx
          · exact getD_set_true_mono vis p.1 x (hmark x hx)
          · rw [List.mem_singleton.mp hx]
            exact getD_set_true vis p.1
        have hnd2 : (q ++ [p.1]).Nodup := by
          rw [List.nodup_append]
          refine ⟨hnd, List.nodup_singleton _, ?_⟩
          intro x hx
          rw [List.mem_singleton]
          intro hc
          rw [hc] at hx
          rw [hmark p.1 hx] at hvis
          exact absurd hvis (by simp)
        obtain ⟨h1, h2, h3, h4⟩ := ih (vis.set p.1 true) (q ++ [p.1]) hmark2 hnd2
        refine ⟨h1, h2, ?_, ?_⟩
        · intro x hx
          rcases h3 x hx with hx2 | hx2
          · rcases List.mem_append.mp hx2 with hx3 | hx3
            · exact Or.inl hx3
            · rw [List.mem_singleton.mp hx3]
              exact Or.inr hvis
          · exact Or.inr (getD_set_true_false vis p.1 x hx2)
        · intro x hx
          exact getD_set_true_false vis p.1 x (h4 x hx)
      · rw [if_neg hvis]
        exact ih vis q hmark hnd

theorem bfsLoop_nodup (adj : List (List (Nat × ℚ))) :
    ∀ (fuel : Nat) (q : List Nat) (vis : List Bool),
      (∀ x ∈ q, vis.getD x true = true) → q.Nodup →
      (bfsLoop adj fuel q vis).Nodup ∧
      (∀ x ∈ bfsLoop adj fuel q vis, x ∈ q ∨ vis.getD x true = false) := by
  intro fuel
  induction fuel with
  | zero =>
      intro q vis _ _
      simp [bfsLoop]
  | succ fuel ih =>
      intro q vis hmark hnd
      cases q with
      | nil => simp [bfsLoop]
      | cons u q =>
          rw [bfsLoop]
          have hmarkq : ∀ x ∈ q, vis.getD x true = true :=
            fun x hx => hmark x (List.mem_cons_of_mem _ hx)
          have hndq : q.Nodup := (List.nodup_cons.mp hnd).2
          obtain ⟨h1, h2, h3, h4⟩ := bfs_enqueue_fold (adj.getD u []) vis q hmarkq hndq
          obtain ⟨ihnd, ihsub⟩ := ih _ _ h1 h2
          constructor
          · rw [List.nodup_cons]
            refine ⟨?_, ihnd⟩
            intro hc
            rcases ihsub u hc with hc2 | hc2
            · rcases h3 u hc2 with hc3 | hc3
              · exact (List.nodup_cons.mp hnd).1 hc3
              · rw [hmark u (by simp)] at hc3
                exact absurd hc3 (by simp)
            · have := h4 u hc2
              rw [hmark u (by simp)] at this
              exact absurd this (by simp)
          · intro x hx
            rcases List.mem_cons.mp hx with hx | hx
            · exact Or.inl (hx ▸ List.mem_cons_self u q)
            · rcases ihsub x hx with hx2 | hx2
              · rcases h3 x hx2 with hx3 | hx3
                · exact Or.inl (List.mem_cons_of_mem _ hx3)
                · exact Or.inr hx3
              · exact Or.inr (h4 x hx2)

/-!  ## The unbound-variable failure of `connected_components` -/

theorem replicate_false_getD_zero (n : Nat) (hn : 0 < n) :
    (List.replicate n false).getD 0 true = false := by
  rw [List.getD_eq_getElem?_getD, List.getElem?_replicate, if_pos hn]
  rfl

theorem connected_components_undirected_err (G : Graph)
    (hd : G.directed = false) (hn : 0 < G.vertices) :
    connected_components G = .error .unboundLocalError := by
  obtain ⟨m, hm⟩ : ∃ m, G.vertices = m + 1 := ⟨G.vertices - 1, by omega⟩
  unfold connected_components
  dsimp only
  rw [hm, List.range_succ_eq_map, List.foldlM_cons,
    replicate_false_getD_zero (m + 1) (by omega)]
  simp only [hd, Bool.false_eq_true, false_and, if_false, if_true]
  rfl

/-!  ## Strictly sorted lists are determined by their members -/

theorem strictSorted_eq_of_mem_iff {α : Type} {r : α → α → Prop}
    (hirr : ∀ a, ¬ r a a) (htrans : ∀ a b c, r a b → r b c → r a c) :
    ∀ (l1 l2 : List α), l1.Pairwise r → l2.Pairwise r →
      (∀ x, x ∈ l1 ↔ x ∈ l2) → l1 = l2 := by
  intro l1
  induction l1 with
  | nil =>
      intro l2 _ _ hmem
      cases l2 with
      | nil => rfl
      | cons b t2 => exact absurd ((hmem b).mpr (by simp)) (by simp)
  | cons a t1 ih =>
      intro l2 h1 h2 hmem
      cases l2 with
      | nil => exact absurd ((hmem a).mp (by simp)) (by simp)
      | cons b t2 =>
          rw [List.pairwise_cons] at h1 h2
          have hab : a = b := by
            by_contra hne
            have ha2 : a ∈ b :: t2 := (hmem a).mp (by simp)
            have hb1 : b ∈ a :: t1 := (hmem b).mpr (by simp)
            rcases List.mem_cons.mp ha2 with h | h
            · exact hne h
            · rcases List.mem_cons.mp hb1 with h' | h'
              · exact hne h'.symm
              · exact hirr a (htrans a b a (h1.1 b h') (h2.1 a h))
          subst hab
          have htail : ∀ x, x ∈ t1 ↔ x ∈ t2 := by
            intro x
            constructor
            · intro hx
              rcases List.mem_cons.mp ((hmem x).mp (List.mem_cons_of_mem a hx)) with h | h
              · exact absurd (h ▸ h1.1 x hx) (hirr a)
              · exact h
            · intro hx
              rcases List.mem_cons.mp ((hmem x).mpr (List.mem_cons_of_mem a hx)) with h | h
              · exact absurd (h ▸ h2.1 x hx) (hirr a)
              · exact h
          rw [ih t2 h1.2 h2.2 htail]

instance : IsTotal (Nat × ℚ) (fun p q => p.1 ≤ q.1) :=
  ⟨fun p q => Nat.le_total p.1 q.1⟩

instance : IsTrans (Nat × ℚ) (fun p q => p.1 ≤ q.1) :=
  ⟨fun _ _ _ h1 h2 => Nat.le_trans h1 h2⟩

theorem sortByFst_sorted (l : List (Nat × ℚ)) :
    (sortByFst l).Pairwise (fun p q => p.1 ≤ q.1) :=
  List.sorted_insertionSort _ l

theorem nodup_map_fst_pairwise (l : List (Nat × ℚ))
    (h : (l.map Prod.fst).Nodup) : l.Pairwise (fun p q => p.1 ≠ q.1) := by
  rw [List.Nodup, List.pairwise_map] at h
  exact h

theorem sortByFst_strict (l : List (Nat × ℚ)) (hnd : (l.map Prod.fst).Nodup) :
    (sortByFst l).Pairwise (fun p q => p.1 < q.1) := by
  have hperm : (sortByFst l).Perm l := List.perm_insertionSort _ l
  have hnd2 : ((sortByFst l).map Prod.fst).Nodup :=
    (hperm.map Prod.fst).nodup_iff.mpr hnd
  have hne := nodup_map_fst_pairwise _ hnd2
  have hle := sortByFst_sorted l
  exact (hle.and hne).imp (fun h => lt_of_le_of_ne h.1 h.2)

theorem strict_fst_imp_eq (l1 l2 : List (Nat × ℚ))
    (h1 : l1.Pairwise (fun p q => p.1 < q.1)) (h2 : l2.Pairwise (fun p q => p.1 < q.1))
    (hmem : ∀ x, x ∈ l1 ↔ x ∈ l2) : l1 = l2 :=
  strictSorted_eq_of_mem_iff (r := fun p q : Nat × ℚ => p.1 < q.1)
    (fun a => lt_irrefl a.1) (fun _ _ _ hab hbc => lt_trans hab hbc) l1 l2 h1 h2 hmem

theorem lexLt_irrefl (e : Nat × Nat) : ¬ lexLt e e := by
  unfold lexLt
  omega

theorem lexLt_trans (a b c : Nat × Nat) (h1 : lexLt a b) (h2 : lexLt b c) : lexLt a c := by
  unfold lexLt at *
  omega

theorem strict_lex_imp_eq (l1 l2 : List (Nat × Nat))
    (h1 : l1.Pairwise lexLt) (h2 : l2.Pairwise lexLt)
    (hmem : ∀ x, x ∈ l1 ↔ x ∈ l2) : l1 = l2 :=
  strictSorted_eq_of_mem_iff lexLt_irrefl lexLt_trans l1 l2 h1 h2 hmem

/-!  ## Incidence columns: the directed edge list -/

theorem hasArc_iff (G : Graph) (u v : Nat) :
    hasArc G u v = true ↔ v ∈ (getAdj G u).map Prod.fst := by
  unfold hasArc
  rw [List.any_eq_true]
  constructor
  · rintro ⟨p, hp, he⟩
    exact List.mem_map.mpr ⟨p, hp, by simpa using he⟩
  · intro h
    rcases List.mem_map.mp h with ⟨p, hp, he⟩
    exact ⟨p, hp, by simpa using he⟩

theorem neighbors_sorted_eq_filter (G : Graph) (hwf : Wf G) (u : Nat) :
    (sortByFst (getAdj G u)).map Prod.fst =
      (List.range G.vertices).filter (fun v => hasArc G u v) := by
  obtain ⟨hlen, hrange, hnodup, _, _⟩ := hwf
  apply strictSorted_eq_of_mem_iff (r := fun a b : Nat => a < b)
    (fun a => lt_irrefl a) (fun a b c hab hbc => Nat.lt_trans hab hbc)
  · rw [List.pairwise_map]
    exact sortByFst_strict _ (hnodup u)
  · exact (List.pairwise_lt_range _).filter _
  · intro x
    rw [List.mem_filter, List.mem_range, hasArc_iff]
    constructor
    · intro hx
      rcases List.mem_map.mp hx with ⟨p, hp, he⟩
      have hp2 : p ∈ getAdj G u := (mem_sortByFst _ _).mp hp
      refine ⟨he ▸ (hrange u p hp2).1, List.mem_map.mpr ⟨p, hp2, he⟩⟩
    · rintro ⟨hxn, hx⟩
      rcases List.mem_map.mp hx with ⟨p, hp, he⟩
      exact List.mem_map.mpr ⟨p, (mem_sortByFst _ _).mpr hp, he⟩

theorem incidenceEdgesDirected_eq_spec (G : Graph) (hwf : Wf G) :
    incidenceEdgesDirected G = specEdgesDirected G := by
  unfold incidenceEdgesDirected specEdgesDirected
  congr 1
  apply List.map_congr_left
  intro u _
  rw [← neighbors_sorted_eq_filter G hwf u, List.map_map]
  rfl

/-!  ## Incidence columns: the undirected edge list -/

theorem collect_inner_spec (u : Nat) (l : List (Nat × ℚ)) :
    ∀ acc : List (Nat × Nat), acc.Nodup → (∀ e ∈ acc, e.1 < e.2) →
      (l.foldl (fun acc p =>
          if u < p.1 ∧ (u, p.1) ∉ acc ∧ (p.1, u) ∉ acc then acc ++ [(u, p.1)] else acc)
        acc).Nodup ∧
      (∀ e ∈ l.foldl (fun acc p =>
          if u < p.1 ∧ (u, p.1) ∉ acc ∧ (p.1, u) ∉ acc then acc ++ [(u, p.1)] else acc)
        acc, e.1 < e.2) ∧
      (∀ e, e ∈ l.foldl (fun acc p =>
          if u < p.1 ∧ (u, p.1) ∉ acc ∧ (p.1, u) ∉ acc then acc ++ [(u, p.1)] else acc)
        acc ↔ e ∈ acc ∨ (e.1 = u ∧ u < e.2 ∧ e.2 ∈ l.map Prod.fst)) := by
  induction l with
  | nil =>
      intro acc hnd hlt
      exact ⟨hnd, hlt, fun e => by simp⟩
  | cons p rest ih =>
      intro acc hnd hlt
      simp only [List.foldl_cons]
      by_cases hC : u < p.1 ∧ (u, p.1) ∉ acc ∧ (p.1, u) ∉ acc
      · rw [if_pos hC]
        have hnd2 : (acc ++ [(u, p.1)]).Nodup := by
          rw [List.nodup_append]
          exact ⟨hnd, List.nodup_singleton _,
            fun x hx => by rw [List.mem_singleton]; rintro rfl; exact hC.2.1 hx⟩
        have hlt2 : ∀ e ∈ acc ++ [(u, p.1)], e.1 < e.2 := by
          intro e he
          rcases List.mem_append.mp he with he | he
          · exact hlt e he
          · rw [List.mem_singleton.mp he]
            exact hC.1
        obtain ⟨h1, h2, h3⟩ := ih (acc ++ [(u, p.1)]) hnd2 hlt2
        refine ⟨h1, h2, ?_⟩
        intro e
        rw [h3 e, List.mem_append, List.mem_singleton, List.map_cons, List.mem_cons]
        constructor
        · rintro ((he | he) | ⟨he1, he2, he3⟩)
          · exact Or.inl he
          · refine Or.inr ⟨by rw [he], by rw [he]; exact hC.1, by rw [he]; exact Or.inl rfl⟩
          · exact Or.inr ⟨he1, he2, Or.inr he3⟩
        · rintro (he | ⟨he1, he2, he3 | he3⟩)
          · exact Or.inl (Or.inl he)
          · refine Or.inl (Or.inr ?_)
            have : e = (e.1, e.2) := rfl
            rw [this, he1, he3]
          · exact Or.inr ⟨he1, he2, he3⟩
      · rw [if_neg hC]
        obtain ⟨h1, h2, h3⟩ := ih acc hnd hlt
        refine ⟨h1, h2, ?_⟩
        intro e
        rw [h3 e, List.map_cons, List.mem_cons]
        constructor
        · rintro (he | ⟨he1, he2, he3⟩)
          · exact Or.inl he
          · exact Or.inr ⟨he1, he2, Or.inr he3⟩
        · rintro (he | ⟨he1, he2, he3 | he3⟩)
          · exact Or.inl he
          · -- the pair was already collected: ¬C with u < e.2 = p.1 forces (u, p.1) ∈ acc
            have hup : u < p.1 := he3 ▸ he2
            have hmem : (u, p.1) ∈ acc := by
              by_contra hmem
              have hrev : (p.1, u) ∈ acc := by
                by_contra hrev
                exact hC ⟨hup, hmem, hrev⟩
              exact absurd (hlt _ hrev) (by omega)
            have : e = (u, p.1) := by
              have : e = (e.1, e.2) := rfl
              rw [this, he1, he3]
            exact Or.inl (this ▸ hmem)
          · exact Or.inr ⟨he1, he2, he3⟩

theorem collect_inner_pair (u : Nat) (l : List (Nat × ℚ)) :
    ∀ a : List (Nat × Nat),
      l.foldl (fun (st : List (Nat × Nat) × List (Nat × Nat)) p =>
        if u < p.1 ∧ (u, p.1) ∉ st.2 ∧ (p.1, u) ∉ st.2 then
          (st.1 ++ [(u, p.1)], st.2 ++ [(u, p.1)]) else st) (a, a) =
      (l.foldl (fun acc p =>
          if u < p.1 ∧ (u, p.1) ∉ acc ∧ (p.1, u) ∉ acc then acc ++ [(u, p.1)] else acc) a,
       l.foldl (fun acc p =>
          if u < p.1 ∧ (u, p.1) ∉ acc ∧ (p.1, u) ∉ acc then acc ++ [(u, p.1)] else acc) a) := by
  induction l with
  | nil => intro a; rfl
  | cons p rest ih =>
      intro a
      simp only [List.foldl_cons]
      by_cases hC : u < p.1 ∧ (u, p.1) ∉ a ∧ (p.1, u) ∉ a
      · rw [if_pos hC, if_pos hC]
        exact ih (a ++ [(u, p.1)])
      · rw [if_neg hC, if_neg hC]
        exact ih a

theorem collect_outer_pair (G : Graph) :
    ∀ (us : List Nat) (a : List (Nat × Nat)),
      us.foldl (fun (st : List (Nat × Nat) × List (Nat × Nat)) u =>
        (getAdj G u).foldl (fun st p =>
          if u < p.1 ∧ (u, p.1) ∉ st.2 ∧ (p.1, u) ∉ st.2 then
            (st.1 ++ [(u, p.1)], st.2 ++ [(u, p.1)]) else st) st) (a, a) =
      (us.foldl (fun acc u => (getAdj G u).foldl (fun acc p =>
          if u < p.1 ∧ (u, p.1) ∉ acc ∧ (p.1, u) ∉ acc then acc ++ [(u, p.1)] else acc) acc) a,
       us.foldl (fun acc u => (getAdj G u).foldl (fun acc p =>
          if u < p.1 ∧ (u, p.1) ∉ acc ∧ (p.1, u) ∉ acc then acc ++ [(u, p.1)] else acc) acc) a) := by
  intro us
  induction us with
  | nil => intro a; rfl
  | cons u rest ih =>
      intro a
      simp only [List.foldl_cons]
      rw [collect_inner_pair u (getAdj G u) a]
      exact ih _

theorem collect_outer_spec (G : Graph) :
    ∀ (us : List Nat) (acc : List (Nat × Nat)), acc.Nodup → (∀ e ∈ acc, e.1 < e.2) →
      (us.foldl (fun acc u => (getAdj G u).foldl (fun acc p =>
          if u < p.1 ∧ (u, p.1) ∉ acc ∧ (p.1, u) ∉ acc then acc ++ [(u, p.1)] else acc) acc)
        acc).Nodup ∧
      (∀ e ∈ us.foldl (fun acc u => (getAdj G u).foldl (fun acc p =>
          if u < p.1 ∧ (u, p.1) ∉ acc ∧ (p.1, u) ∉ acc then acc ++ [(u, p.1)] else acc) acc)
        acc, e.1 < e.2) ∧
      (∀ e, e ∈ us.foldl (fun acc u => (getAdj G u).foldl (fun acc p =>
          if u < p.1 ∧ (u, p.1) ∉ acc ∧ (p.1, u) ∉ acc then acc ++ [(u, p.1)] else acc) acc)
        acc ↔
        e ∈ acc ∨ (e.1 ∈ us ∧ e.1 < e.2 ∧ e.2 ∈ (getAdj G e.1).map Prod.fst)) := by
  intro us
  induction us with
  | nil =>
      intro acc hnd hlt
      exact ⟨hnd, hlt, fun e => by simp⟩
  | cons u rest ih =>
      intro acc hnd hlt
      simp only [List.foldl_cons]
      obtain ⟨h1, h2, h3⟩ := collect_inner_spec u (getAdj G u) acc hnd hlt
      obtain ⟨g1, g2, g3⟩ := ih _ h1 h2
      refine ⟨g1, g2, ?_⟩
      intro e
      rw [g3 e, h3 e, List.mem_cons]
      constructor
      · rintro ((he | ⟨he1, he2, he3⟩) | ⟨he1, he2, he3⟩)
        · exact Or.inl he
        · exact Or.inr ⟨Or.inl he1, by rw [he1]; exact he2, by rw [he1]; exact he3⟩
        · exact Or.inr ⟨Or.inr he1, he2, he3⟩
      · rintro (he | ⟨he1 | he1, he2, he3⟩)
        · exact Or.inl (Or.inl he)
        · exact Or.inl (Or.inr ⟨he1, by rw [← he1]; exact he2, by rw [← he1]; exact he3⟩)
        · exact Or.inr ⟨he1, he2, he3⟩

theorem collectUndirectedEdges_spec (G : Graph) :
    (collectUndirectedEdges G).Nodup ∧ (∀ e ∈ collectUndirectedEdges G, e.1 < e.2) ∧
    (∀ e, e ∈ collectUndirectedEdges G ↔
      e.1 < G.vertices ∧ e.1 < e.2 ∧ e.2 ∈ (getAdj G e.1).map Prod.fst) := by
  unfold collectUndirectedEdges
  rw [collect_outer_pair G (List.range G.vertices) []]
  obtain ⟨h1, h2, h3⟩ := collect_outer_spec G (List.range G.vertices) [] (by simp) (by simp)
  refine ⟨h1, h2, ?_⟩
  intro e
  rw [h3 e]
  simp [List.mem_range]

instance : IsTotal (Nat × Nat) minMaxLe :=
  ⟨fun e f => by unfold minMaxLe; omega⟩

instance : IsTrans (Nat × Nat) minMaxLe :=
  ⟨fun e f g h1 h2 => by unfold minMaxLe at *; omega⟩

theorem flatten_lex_pairwise (n : Nat) (f : Nat → List Nat)
    (hf : ∀ u, (f u).Pairwise (fun a b => a < b)) :
    (((List.range n).map (fun u => (f u).map (fun v => (u, v)))).flatten).Pairwise lexLt := by
  rw [List.pairwise_flatten]
  constructor
  · intro l hl
    rcases List.mem_map.mp hl with ⟨u, _, rfl⟩
    rw [List.pairwise_map]
    exact (hf u).imp (fun hab => Or.inr ⟨rfl, hab⟩)
  · rw [List.pairwise_map]
    refine (List.pairwise_lt_range n).imp ?_
    intro u1 u2 h12 x hx y hy
    rcases List.mem_map.mp hx with ⟨a, _, rfl⟩
    rcases List.mem_map.mp hy with ⟨b, _, rfl⟩
    exact Or.inl h12

theorem specEdgesDirected_pairwise (G : Graph) :
    (specEdgesDirected G).Pairwise lexLt := by
  unfold specEdgesDirected
  exact flatten_lex_pairwise G.vertices _
    (fun u => (List.pairwise_lt_range _).filter _)

theorem specEdgesUndirected_pairwise (G : Graph) :
    (specEdgesUndirected G).Pairwise lexLt := by
  unfold specEdgesUndirected
  exact flatten_lex_pairwise G.vertices _
    (fun u => (List.pairwise_lt_range _).filter _)

theorem mem_specEdgesUndirected (G : Graph) (e : Nat × Nat) :
    e ∈ specEdgesUndirected G ↔
      e.1 < G.vertices ∧ e.2 < G.vertices ∧ e.1 < e.2 ∧ hasArc G e.1 e.2 = true := by
  unfold specEdgesUndirected
  rw [List.mem_flatten]
  constructor
  · rintro ⟨l, hl, he⟩
    rcases List.mem_map.mp hl with ⟨u, hu, rfl⟩
    rcases List.mem_map.mp he with ⟨v, hv, rfl⟩
    rw [List.mem_filter, List.mem_range] at hv
    have hv2 := hv.2
    rw [Bool.and_eq_true, decide_eq_true_eq] at hv2
    exact ⟨List.mem_range.mp hu, hv.1, hv2.1, hv2.2⟩
  · rintro ⟨h1, h2, h3, h4⟩
    refine ⟨((List.range G.vertices).filter
        (fun v => decide (e.1 < v) && hasArc G e.1 v)).map (fun v => (e.1, v)), ?_, ?_⟩
    · exact List.mem_map.mpr ⟨e.1, List.mem_range.mpr h1, rfl⟩
    · refine List.mem_map.mpr ⟨e.2, ?_, rfl⟩
      rw [List.mem_filter, List.mem_range]
      exact ⟨h2, by rw [Bool.and_eq_true, decide_eq_true_eq]; exact ⟨h3, h4⟩⟩

theorem mem_specEdgesDirected (G : Graph) (e : Nat × Nat) :
    e ∈ specEdgesDirected G ↔
      e.1 < G.vertices ∧ e.2 < G.vertices ∧ hasArc G e.1 e.2 = true := by
  unfold specEdgesDirected
  rw [List.mem_flatten]
  constructor
  · rintro ⟨l, hl, he⟩
    rcases List.mem_map.mp hl with ⟨u, hu, rfl⟩
    rcases List.mem_map.mp he with ⟨v, hv, rfl⟩
    rw [List.mem_filter, List.mem_range] at hv
    exact ⟨List.mem_range.mp hu, hv.1, hv.2⟩
  · rintro ⟨h1, h2, h3⟩
    refine ⟨((List.range G.vertices).filter (fun v => hasArc G e.1 v)).map
        (fun v => (e.1, v)), ?_, ?_⟩
    · exact List.mem_map.mpr ⟨e.1, List.mem_range.mpr h1, rfl⟩
    · refine List.mem_map.mpr ⟨e.2, ?_, rfl⟩
      rw [List.mem_filter, List.mem_range]
      exact ⟨h2, h3⟩

theorem incidenceEdgesUndirected_eq_spec (G : Graph) (hwf : Wf G) :
    List.insertionSort minMaxLe (collectUndirectedEdges G) = specEdgesUndirected G := by
  obtain ⟨hlen, hrange, hnodup, _, _⟩ := hwf
  obtain ⟨hnd_c, hlt_c, hmem_c⟩ := collectUndirectedEdges_spec G
  have hperm := List.perm_insertionSort minMaxLe (collectUndirectedEdges G)
  apply strict_lex_imp_eq
  · have hsorted : (List.insertionSort minMaxLe (collectUndirectedEdges G)).Pairwise minMaxLe :=
      List.sorted_insertionSort _ _
    have hnd : (List.insertionSort minMaxLe (collectUndirectedEdges G)).Nodup :=
      hperm.nodup_iff.mpr hnd_c
    refine (hsorted.and hnd).imp_of_mem ?_
    intro a b ha hb hab
    have ha2 := hlt_c a (hperm.mem_iff.mp ha)
    have hb2 := hlt_c b (hperm.mem_iff.mp hb)
    obtain ⟨hle, hne⟩ := hab
    have hne2 : ¬ (a.1 = b.1 ∧ a.2 = b.2) := by
      intro hc
      exact hne (Prod.ext hc.1 hc.2)
    unfold minMaxLe at hle
    unfold lexLt
    omega
  · exact specEdgesUndirected_pairwise G
  · intro e
    rw [hperm.mem_iff, hmem_c e, mem_specEdgesUndirected]
    rw [hasArc_iff]
    constructor
    · rintro ⟨h1, h2, h3⟩
      have h5 : e.2 < G.vertices := by
        rcases List.mem_map.mp h3 with ⟨p, hp, he⟩
        exact he ▸ (hrange e.1 p hp).1
      exact ⟨h1, h5, h2, h3⟩
    · rintro ⟨h1, _, h3, h4⟩
      exact ⟨h1, h3, h4⟩

/-!  ## Generic facts about the integer matrix builder -/

theorem zget_replicate (n m r c : Nat) :
    zget (List.replicate n (List.replicate m (0 : ℤ))) r c = 0 := by
  unfold zget
  have hrow : (List.replicate n (List.replicate m (0 : ℤ))).getD r [] =
      if r < n then List.replicate m (0 : ℤ) else [] := by
    rw [List.getD_eq_getElem?_getD, List.getElem?_replicate]
    split <;> rfl
  rw [hrow]
  split
  · rw [List.getD_eq_getElem?_getD, List.getElem?_replicate]
    split <;> rfl
  · rfl

theorem rectShape_zreplicate (n m : Nat) :
    RectShape (List.replicate n (List.replicate m (0 : ℤ))) n m := by
  constructor
  · simp
  · intro row hrow
    simp [List.eq_of_mem_replicate hrow]

theorem rectShape_zset (mat : List (List ℤ)) (n k i j : Nat) (x : ℤ)
    (hs : RectShape mat n k) : RectShape (zset mat i j x) n k := by
  obtain ⟨h1, h2⟩ := hs
  refine ⟨by simp [zset, h1], ?_⟩
  intro row hrow
  by_cases hi : i < mat.length
  · rcases List.mem_or_eq_of_mem_set hrow with h | h
    · exact h2 row h
    · rw [h, List.length_set]
      exact h2 _ (getD_mem_of_lt mat i [] hi)
  · have hset : zset mat i j x = mat := by
      unfold zset
      exact List.set_eq_of_length_le (le_of_not_lt hi)
    rw [hset] at hrow
    exact h2 row hrow

theorem zget_zset (mat : List (List ℤ)) (n k : Nat) (hs : RectShape mat n k)
    (i j : Nat) (hi : i < n) (hj : j < k) (x : ℤ) (r c : Nat) :
    zget (zset mat i j x) r c = if r = i ∧ c = j then x else zget mat r c := by
  obtain ⟨h1, h2⟩ := hs
  have hil : i < mat.length := h1 ▸ hi
  have hrowlen : (mat.getD i []).length = k := h2 _ (getD_mem_of_lt mat i [] hil)
  have houter : ∀ y, (mat.set i ((mat.getD i []).set j x)).getD y [] =
      if y = i then (mat.getD i []).set j x else mat.getD y [] := by
    intro y
    by_cases hy : y = i
    · subst hy
      rw [List.getD_eq_getElem?_getD, List.getElem?_set_self hil]
      simp
    · rw [List.getD_eq_getElem?_getD, List.getElem?_set_ne (fun hx => hy hx.symm),
        ← List.getD_eq_getElem?_getD]
      simp [hy]
  unfold zget zset
  rw [houter]
  by_cases hr : r = i
  · rw [if_pos hr]
    by_cases hc : c = j
    · subst hc
      rw [List.getD_eq_getElem?_getD, List.getElem?_set_self (by omega), Option.getD_some]
      simp [hr]
    · rw [List.getD_eq_getElem?_getD, List.getElem?_set_ne (fun hx => hc hx.symm),
        ← List.getD_eq_getElem?_getD]
      subst hr
      simp [hc, zget]
  · rw [if_neg hr]
    simp [hr, zget]

theorem zget_eq_getElem (m : List (List ℤ)) (r c : Nat) (hr : r < m.length)
    (hc : c < m[r].length) : zget m r c = m[r][c] := by
  unfold zget
  rw [List.getD_eq_getElem?_getD, List.getD_eq_getElem?_getD, List.getElem?_eq_getElem hr]
  simp only [Option.getD_some]
  rw [List.getElem?_eq_getElem hc]
  rfl

theorem rect_ext_z (m1 m2 : List (List ℤ)) (n k : Nat)
    (h1 : RectShape m1 n k) (h2 : RectShape m2 n k)
    (h : ∀ r c, r < n → c < k → zget m1 r c = zget m2 r c) : m1 = m2 := by
  obtain ⟨hl1, hr1⟩ := h1
  obtain ⟨hl2, hr2⟩ := h2
  apply List.ext_getElem?
  intro r
  by_cases hr : r < n
  · have hr1l : r < m1.length := hl1 ▸ hr
    have hr2l : r < m2.length := hl2 ▸ hr
    rw [List.getElem?_eq_getElem hr1l, List.getElem?_eq_getElem hr2l]
    congr 1
    have hrow1 : m1[r] ∈ m1 := List.getElem_mem hr1l
    have hrow2 : m2[r] ∈ m2 := List.getElem_mem hr2l
    apply List.ext_getElem?
    intro c
    by_cases hc : c < k
    · have hc1 : c < m1[r].length := (hr1 _ hrow1) ▸ hc
      have hc2 : c < m2[r].length := (hr2 _ hrow2) ▸ hc
      rw [List.getElem?_eq_getElem hc1, List.getElem?_eq_getElem hc2]
      have hz := h r c hr hc
      rw [zget_eq_getElem m1 r c hr1l hc1, zget_eq_getElem m2 r c hr2l hc2] at hz
      rw [hz]
    · rw [List.getElem?_eq_none (by rw [hr1 _ hrow1]; omega),
        List.getElem?_eq_none (by rw [hr2 _ hrow2]; omega)]
  · rw [List.getElem?_eq_none (by omega), List.getElem?_eq_none (by omega)]

theorem incidence_fold_shape (d : Bool) (n k : Nat) (l : List (Nat × Nat × Nat)) :
    ∀ mat : List (List ℤ), RectShape mat n k →
      RectShape (l.foldl (fun mat ie =>
        if d then zset (zset mat ie.2.1 ie.1 (-1)) ie.2.2 ie.1 1
        else zset (zset mat ie.2.1 ie.1 1) ie.2.2 ie.1 1) mat) n k := by
  induction l with
  | nil => exact fun mat hs => hs
  | cons ie rest ih =>
      intro mat hs
      simp only [List.foldl_cons]
      apply ih
      cases d
      · exact rectShape_zset _ n k _ _ _ (rectShape_zset _ n k _ _ _ hs)
      · exact rectShape_zset _ n k _ _ _ (rectShape_zset _ n k _ _ _ hs)

theorem incidence_fold_entry (d : Bool) (n : Nat) :
    ∀ (es : List (Nat × Nat)), (∀ e ∈ es, e.1 < n ∧ e.2 < n) →
    ∀ (k : Nat) (mat : List (List ℤ)) (mtot : Nat), RectShape mat n mtot →
      k + es.length ≤ mtot →
      (∀ r c, k ≤ c → zget mat r c = 0) →
      ∀ r c, zget ((List.enumFrom k es).foldl (fun mat ie =>
          if d then zset (zset mat ie.2.1 ie.1 (-1)) ie.2.2 ie.1 1
          else zset (zset mat ie.2.1 ie.1 1) ie.2.2 ie.1 1) mat) r c =
        if k ≤ c ∧ c < k + es.length then
          (if r = (es.getD (c - k) (0, 0)).2 then 1
           else if r = (es.getD (c - k) (0, 0)).1 then (if d then -1 else 1) else 0)
        else zget mat r c := by
  intro es
  induction es with
  | nil =>
      intro _ k mat mtot _ _ _ r c
      rw [if_neg (by simp only [List.length_nil]; omega)]
      rfl
  | cons e rest ih =>
      intro hlt k mat mtot hs hktot hzero r c
      have he : e.1 < n ∧ e.2 < n := hlt e (by simp)
      have hrest : ∀ x ∈ rest, x.1 < n ∧ x.2 < n :=
        fun x hx => hlt x (List.mem_cons_of_mem _ hx)
      have hk : k < mtot := by
        simp only [List.length_cons] at hktot
        omega
      have hmerge : (if d then zset (zset mat e.1 k (-1)) e.2 k 1
          else zset (zset mat e.1 k 1) e.2 k 1) =
          zset (zset mat e.1 k (if d then (-1) else 1)) e.2 k 1 := by
        cases d <;> rfl
      have hs1 : RectShape (zset mat e.1 k (if d then (-1) else 1)) n mtot :=
        rectShape_zset _ n mtot _ _ _ hs
      have hs2 : RectShape (zset (zset mat e.1 k (if d then (-1) else 1)) e.2 k 1) n mtot :=
        rectShape_zset _ n mtot _ _ _ hs1
      have hentry1 : ∀ r c, zget (zset (zset mat e.1 k (if d then (-1) else 1)) e.2 k 1) r c =
          if r = e.2 ∧ c = k then 1
          else if r = e.1 ∧ c = k then (if d then (-1) else 1)
          else zget mat r c := by
        intro r c
        rw [zget_zset _ n mtot hs1 e.2 k he.2 hk 1 r c,
          zget_zset _ n mtot hs e.1 k he.1 hk _ r c]
      have hzero1 : ∀ r c, k + 1 ≤ c →
          zget (zset (zset mat e.1 k (if d then (-1) else 1)) e.2 k 1) r c = 0 := by
        intro r c hc
        rw [hentry1, if_neg (by omega), if_neg (by omega)]
        exact hzero r c (by omega)
      have hktot1 : (k + 1) + rest.length ≤ mtot := by
        simp only [List.length_cons] at hktot
        omega
      have hcons : List.enumFrom k (e :: rest) = (k, e) :: List.enumFrom (k + 1) rest := rfl
      rw [hcons, List.foldl_cons, hmerge]
      rw [ih hrest (k + 1) _ mtot hs2 hktot1 hzero1 r c]
      by_cases hc1 : k + 1 ≤ c ∧ c < (k + 1) + rest.length
      · rw [if_pos hc1]
        rw [if_pos (show k ≤ c ∧ c < k + (e :: rest).length from by
          simp only [List.length_cons]; omega)]
        have hsub : c - k = (c - (k + 1)) + 1 := by omega
        rw [hsub, List.getD_cons_succ]
      · rw [if_neg hc1, hentry1 r c]
        by_cases hck : c = k
        · rw [if_pos (show k ≤ c ∧ c < k + (e :: rest).length from by
            simp only [List.length_cons]; omega)]
          have hsub : c - k = 0 := by omega
          rw [hsub, List.getD_cons_zero]
          by_cases hr2 : r = e.2
          · rw [if_pos (show r = e.2 ∧ c = k from ⟨hr2, hck⟩), if_pos hr2]
          · rw [if_neg (show ¬ (r = e.2 ∧ c = k) from fun hx => hr2 hx.1),
              if_neg hr2]
            by_cases hr1 : r = e.1
            · rw [if_pos (show r = e.1 ∧ c = k from ⟨hr1, hck⟩), if_pos hr1]
            · rw [if_neg (show ¬ (r = e.1 ∧ c = k) from fun hx => hr1 hx.1),
                if_neg hr1]
              exact hzero r c (by omega)
        · rw [if_neg (show ¬ (r = e.2 ∧ c = k) from fun hx => hck hx.2),
            if_neg (show ¬ (r = e.1 ∧ c = k) from fun hx => hck hx.2),
            if_neg (show ¬ (k ≤ c ∧ c < k + (e :: rest).length) from by
              simp only [List.length_cons]; omega)]

theorem range_map_getD {β : Type} (n : Nat) (f : Nat → β) (r : Nat) (hr : r < n) (d : β) :
    ((List.range n).map f).getD r d = f r := by
  rw [List.getD_eq_getElem?_getD, List.getElem?_map, List.getElem?_range hr]
  rfl

theorem map_getD_lt {α β : Type} (f : α → β) (l : List α) (c : Nat) (hc : c < l.length)
    (d : α) (d2 : β) : (l.map f).getD c d2 = f (l.getD c d) := by
  rw [List.getD_eq_getElem?_getD, List.getElem?_map, List.getElem?_eq_getElem hc,
    List.getD_eq_getElem?_getD, List.getElem?_eq_getElem hc]
  rfl

theorem specIncidence_shape (G : Graph) :
    RectShape (specIncidence G) G.vertices (specEdges G).length := by
  unfold specIncidence
  constructor
  · simp
  · intro row hrow
    rcases List.mem_map.mp hrow with ⟨r, _, hrw⟩
    rw [← hrw]
    simp

theorem zget_specIncidence (G : Graph) (r c : Nat) (hr : r < G.vertices)
    (hc : c < (specEdges G).length) :
    zget (specIncidence G) r c =
      (if G.directed then
        (if r = ((specEdges G).getD c (0, 0)).1 then -1
         else if r = ((specEdges G).getD c (0, 0)).2 then 1 else 0)
       else (if r = ((specEdges G).getD c (0, 0)).1 ∨ r = ((specEdges G).getD c (0, 0)).2
         then 1 else 0)) := by
  unfold specIncidence zget
  dsimp only
  rw [range_map_getD G.vertices _ r hr, map_getD_lt _ _ c hc (0, 0) 0]

theorem specEdges_bounds (G : Graph) (hwf : Wf G) :
    ∀ e ∈ specEdges G, e.1 < G.vertices ∧ e.2 < G.vertices := by
  intro e he
  unfold specEdges at he
  by_cases hd : G.directed
  · rw [if_pos hd] at he
    have := (mem_specEdgesDirected G e).mp he
    exact ⟨this.1, this.2.1⟩
  · rw [if_neg hd] at he
    have := (mem_specEdgesUndirected G e).mp he
    exact ⟨this.1, this.2.1⟩

theorem specEdges_ne (G : Graph) (hwf : Wf G) :
    ∀ e ∈ specEdges G, e.1 ≠ e.2 := by
  obtain ⟨hlen, hrange, hnodup, _, _⟩ := hwf
  intro e he
  unfold specEdges at he
  have harc : hasArc G e.1 e.2 = true := by
    by_cases hd : G.directed
    · rw [if_pos hd] at he
      exact ((mem_specEdgesDirected G e).mp he).2.2
    · rw [if_neg hd] at he
      exact ((mem_specEdgesUndirected G e).mp he).2.2.2
  rcases List.mem_map.mp ((hasArc_iff G e.1 e.2).mp harc) with ⟨p, hp, hfst⟩
  intro hc
  exact (hrange e.1 p hp).2 (by rw [hfst, ← hc])

theorem get_incidence_matrix_eq_spec (G : Graph) (hwf : Wf G) :
    get_incidence_matrix G = specIncidence G := by
  have hedges : (if G.directed = true then incidenceEdgesDirected G
      else List.insertionSort minMaxLe (collectUndirectedEdges G)) = specEdges G := by
    unfold specEdges
    by_cases hd : G.directed
    · rw [if_pos hd, if_pos hd, incidenceEdgesDirected_eq_spec G hwf]
    · rw [if_neg hd, if_neg hd, incidenceEdgesUndirected_eq_spec G hwf]
  unfold get_incidence_matrix
  dsimp only
  rw [hedges]
  have henum : (specEdges G).enum = List.enumFrom 0 (specEdges G) := rfl
  rw [henum]
  apply rect_ext_z _ _ G.vertices (specEdges G).length
  · exact incidence_fold_shape G.directed G.vertices (specEdges G).length _ _
      (rectShape_zreplicate G.vertices (specEdges G).length)
  · exact specIncidence_shape G
  · intro r c hr hc
    rw [incidence_fold_entry G.directed G.vertices (specEdges G)
      (specEdges_bounds G hwf) 0 _ (specEdges G).length
      (rectShape_zreplicate G.vertices (specEdges G).length)
      (by omega)
      (fun r c _ => zget_replicate G.vertices (specEdges G).length r c) r c]
    rw [if_pos (show 0 ≤ c ∧ c < 0 + (specEdges G).length from by omega)]
    rw [zget_specIncidence G r c hr hc]
    have hsub : c - 0 = c := by omega
    rw [hsub]
    have he := getD_mem_of_lt (specEdges G) c (0, 0) hc
    have hne := specEdges_ne G hwf _ he
    by_cases hd : G.directed
    · rw [if_pos hd, if_pos hd]
      by_cases h2 : r = ((specEdges G).getD c (0, 0)).2
      · rw [if_pos h2, if_neg (by rw [h2]; exact fun hx => hne hx.symm), if_pos h2]
      · rw [if_neg h2]
        by_cases h1 : r = ((specEdges G).getD c (0, 0)).1
        · rw [if_pos h1, if_pos h1]
        · rw [if_neg h1, if_neg h1, if_neg h2]
    · rw [if_neg hd, if_neg hd]
      by_cases h2 : r = ((specEdges G).getD c (0, 0)).2
      · rw [if_pos h2, if_pos (Or.inr h2)]
      · rw [if_neg h2]
        by_cases h1 : r = ((specEdges G).getD c (0, 0)).1
        · rw [if_pos h1, if_pos (Or.inl h1)]
        · rw [if_neg h1, if_neg (by rintro (h | h) <;> [exact h1 h; exact h2 h])]

theorem filter_range_pair (n a b : Nat) (ha : a < n) (hb : b < n) (hab : a < b) :
    (List.range n).filter (fun r => decide (r = a) || decide (r = b)) = [a, b] := by
  apply strictSorted_eq_of_mem_iff (r := fun x y : Nat => x < y)
    (fun x => lt_irrefl x) (fun x y z hxy hyz => Nat.lt_trans hxy hyz)
  · exact (List.pairwise_lt_range n).filter _
  · exact List.pairwise_cons.mpr ⟨fun y hy => by rw [List.mem_singleton.mp hy]; exact hab,
      List.pairwise_singleton _ _⟩
  · intro x
    rw [List.mem_filter, List.mem_range]
    simp only [Bool.or_eq_true, decide_eq_true_eq, List.mem_cons, List.mem_singleton,
      List.not_mem_nil, or_false]
    constructor
    · rintro ⟨_, h | h⟩
      · exact Or.inl h
      · exact Or.inr h
    · rintro (h | h)
      · exact ⟨h ▸ ha, Or.inl h⟩
      · exact ⟨h ▸ hb, Or.inr h⟩

theorem col_sum (n a b : Nat) (x y : ℤ) (hab : a ≠ b) (ha : a < n) (hb : b < n) :
    ((List.range n).map (fun r => if r = a then x else if r = b then y else 0)).sum = x + y := by
  have hpt : ∀ r, (if r = a then x else if r = b then y else 0) =
      (if r = a then x else 0) + (if r = b then y else 0) := by
    intro r
    by_cases hra : r = a
    · rw [if_pos hra, if_pos hra, if_neg (by rw [hra]; exact hab), add_zero]
    · rw [if_neg hra, if_neg hra, zero_add]
  have h1 : ((List.range n).map (fun r => if r = a then x else if r = b then y else 0)).sum =
      ∑ r ∈ Finset.range n, (if r = a then x else if r = b then y else 0) := rfl
  rw [h1]
  calc ∑ r ∈ Finset.range n, (if r = a then x else if r = b then y else 0)
      = ∑ r ∈ Finset.range n, ((if r = a then x else 0) + (if r = b then y else 0)) := by
        exact Finset.sum_congr rfl (fun r _ => hpt r)
    _ = (∑ r ∈ Finset.range n, (if r = a then x else 0)) +
        (∑ r ∈ Finset.range n, (if r = b then y else 0)) := Finset.sum_add_distrib
    _ = x + y := by
        rw [Finset.sum_ite_eq' (Finset.range n) a (fun _ => x),
          Finset.sum_ite_eq' (Finset.range n) b (fun _ => y),
          if_pos (Finset.mem_range.mpr ha), if_pos (Finset.mem_range.mpr hb)]

theorem col_count (n a b : Nat) (x y : ℤ) (hx : x ≠ 0) (hy : y ≠ 0)
    (hab : a ≠ b) (ha : a < n) (hb : b < n) :
    ((List.range n).map (fun r => if r = a then x else if r = b then y else 0)).countP
      (fun z => decide (z ≠ 0)) = 2 := by
  rw [List.countP_map]
  have hcongr : List.countP
      ((fun z => decide (z ≠ 0)) ∘ (fun r => if r = a then x else if r = b then y else 0))
      (List.range n) =
      List.countP (fun r => decide (r = a) || decide (r = b)) (List.range n) := by
    apply List.countP_congr
    intro r _
    simp only [Function.comp_apply, Bool.or_eq_true, decide_eq_true_eq]
    by_cases hra : r = a
    · simp [hra, hx]
    · by_cases hrb : r = b
      · simp [hra, hrb, hy, show ¬ b = a from fun h => hab h.symm]
      · simp [hra, hrb]
  rw [hcongr, List.countP_eq_length_filter]
  rcases Nat.lt_or_ge a b with h | h
  · rw [filter_range_pair n a b ha hb h]
    rfl
  · have hba : b < a := by omega
    have hcomm : (List.range n).filter (fun r => decide (r = a) || decide (r = b)) =
        (List.range n).filter (fun r => decide (r = b) || decide (r = a)) := by
      apply List.filter_congr
      intro r _
      rw [Bool.or_comm]
    rw [hcomm, filter_range_pair n b a hb ha hba]
    rfl

/-!  ## Round-trip support: non-zero weights and fresh insertions -/

theorem setEntry_append_of_not_mem (l : List (Nat × ℚ)) (v : Nat) (w : ℚ)
    (h : v ∉ l.map Prod.fst) : setEntry l v w = l ++ [(v, w)] := by
  induction l with
  | nil => rfl
  | cons p rest ih =>
      obtain ⟨a, b⟩ := p
      simp only [List.map_cons, List.mem_cons, not_or] at h
      simp [setEntry, Ne.symm h.1, ih h.2]

theorem wnz_initGraph (n : Nat) (d w : Bool) : WNZ (initGraph n d w) := by
  intro u p hp
  rw [getAdj_initGraph] at hp
  exact absurd hp (List.not_mem_nil p)

theorem wnz_addEdge (G : Graph) (u v : Nat) (w : ℚ) (G' : Graph)
    (hr : Reachable G) (hwnz : WNZ G) (hw : G.weighted = true → w ≠ 0)
    (hok : addEdge G u v w = .ok G') : WNZ G' := by
  obtain ⟨hlen, _, hnodup, _, _⟩ := reachable_wf G hr
  obtain ⟨hu, hv, hne, hcase⟩ := addEdge_ok_inv G u v w G' hok
  rcases hcase with ⟨hwt, he⟩ | ⟨hwt, he⟩
  · subst he
    intro y p hp
    rcases (stepW_mem G u v w hlen hnodup hu hv hne y p).mp hp with ⟨h, _, _⟩ | ⟨_, hp2⟩ | ⟨_, _, hp2⟩
    · exact hwnz y p h
    · rw [hp2]
      exact hw hwt
    · rw [hp2]
      exact hw hwt
  · subst he
    intro y p hp
    rcases (stepU_mem G u v hlen hu hv hne y p).mp hp with h | ⟨_, hp2⟩ | ⟨_, _, hp2⟩
    · exact hwnz y p h
    · rw [hp2]
      exact one_ne_zero
    · rw [hp2]
      exact one_ne_zero

theorem from_edges_fold_ok (n : Nat) :
    ∀ (edges : List (Nat × Nat × ℚ)) (g0 : Graph), Reachable g0 → WNZ g0 →
      g0.vertices = n →
      (∀ e ∈ edges, e.1 < n ∧ e.2.1 < n ∧ e.1 ≠ e.2.1 ∧ (g0.weighted = true → e.2.2 ≠ 0)) →
      ∃ G, edges.foldlM
          (fun g e =>
            if ¬ (e.1 < n ∧ e.2.1 < n) then Except.error PyErr.indexError
            else if e.1 = e.2.1 then Except.error PyErr.valueError
            else addEdge g e.1 e.2.1 e.2.2) g0 = .ok G ∧
        Reachable G ∧ WNZ G ∧ G.vertices = n ∧ G.directed = g0.directed ∧
        G.weighted = g0.weighted := by
  intro edges
  induction edges with
  | nil =>
      intro g0 hr hwnz hn _
      exact ⟨g0, rfl, hr, hwnz, hn, rfl, rfl⟩
  | cons e rest ih =>
      intro g0 hr hwnz hn hvalid
      obtain ⟨he1, he2, he3, he4⟩ := hvalid e (by simp)
      have hstep : (if ¬ (e.1 < n ∧ e.2.1 < n) then Except.error PyErr.indexError
          else if e.1 = e.2.1 then Except.error PyErr.valueError
          else addEdge g0 e.1 e.2.1 e.2.2) = addEdge g0 e.1 e.2.1 e.2.2 := by
        rw [if_neg (not_not_intro ⟨he1, he2⟩), if_neg he3]
      obtain ⟨g1, hadd⟩ : ∃ g1, addEdge g0 e.1 e.2.1 e.2.2 = .ok g1 := by
        unfold addEdge
        by_cases hwt : g0.weighted
        · rw [if_pos hwt]
          exact ⟨_, addEdgeWeighted_eq_ok g0 e.1 e.2.1 e.2.2 (hn ▸ he1) (hn ▸ he2) he3⟩
        · rw [if_neg hwt]
          exact ⟨_, addEdgeUnweighted_eq_ok g0 e.1 e.2.1 e.2.2 (hn ▸ he1) (hn ▸ he2) he3⟩
      have hr1 : Reachable g1 := Reachable.step _ _ _ hr hadd
      have hwnz1 : WNZ g1 := wnz_addEdge g0 _ _ _ g1 hr hwnz he4 hadd
      have hfields : g1.vertices = g0.vertices ∧ g1.directed = g0.directed ∧
          g1.weighted = g0.weighted := by
        obtain ⟨hu, hv, hne, hcase⟩ := addEdge_ok_inv g0 _ _ _ g1 hadd
        rcases hcase with ⟨_, he⟩ | ⟨_, he⟩
        · rw [he]
          obtain ⟨h1, h2, h3, _⟩ := stepW_fields g0 e.1 e.2.1 e.2.2
          exact ⟨h1, h2, h3⟩
        · rw [he]
          obtain ⟨h1, h2, h3, _⟩ := stepU_fields g0 e.1 e.2.1
          exact ⟨h1, h2, h3⟩
      have hvalid1 : ∀ x ∈ rest, x.1 < n ∧ x.2.1 < n ∧ x.1 ≠ x.2.1 ∧
          (g1.weighted = true → x.2.2 ≠ 0) := by
        intro x hx
        obtain ⟨a, b, c, d⟩ := hvalid x (List.mem_cons_of_mem _ hx)
        exact ⟨a, b, c, fun hh => d (by rw [← hfields.2.2]; exact hh)⟩
      obtain ⟨G, hG, hrG, hwnzG, hnG, hdG, hwG⟩ :=
        ih g1 hr1 hwnz1 (hfields.1.trans hn) hvalid1
      refine ⟨G, ?_, hrG, hwnzG, hnG, hdG.trans hfields.2.1, hwG.trans hfields.2.2⟩
      rw [List.foldlM_cons, hstep, hadd]
      exact hG

theorem from_edges_ok (vertices : Int) (edges : List (Nat × Nat × ℚ)) (directed : Bool)
    (hv : 0 ≤ vertices)
    (hvalid : ∀ e ∈ edges, e.1 < vertices.toNat ∧ e.2.1 < vertices.toNat ∧
      e.1 ≠ e.2.1 ∧ e.2.2 ≠ 0) :
    ∃ G, from_edges vertices edges directed = .ok G ∧ Reachable G ∧ WNZ G ∧
      G.vertices = vertices.toNat ∧ G.directed = directed ∧
      G.weighted = edges.any (fun e => e.2.2 ≠ 1) := by
  unfold from_edges
  rw [if_neg (not_lt.mpr hv)]
  exact from_edges_fold_ok vertices.toNat edges
    (initGraph vertices.toNat directed (edges.any (fun e => e.2.2 ≠ 1)))
    (Reachable.init _ _ _) (wnz_initGraph _ _ _) rfl
    (fun e he => ⟨(hvalid e he).1, (hvalid e he).2.1, (hvalid e he).2.2.1,
      fun _ => (hvalid e he).2.2.2⟩)

theorem hasArc_false_iff (G : Graph) (a b : Nat) :
    hasArc G a b = false ↔ b ∉ (getAdj G a).map Prod.fst := by
  rw [← Bool.not_eq_true, hasArc_iff]

theorem insertAll_rows (W : Nat → Nat → ℚ) :
    ∀ (ts : List (Nat × Nat)) (g : Graph), Reachable g →
      (∀ t ∈ ts, t.1 < g.vertices ∧ t.2 < g.vertices ∧ t.1 ≠ t.2) →
      (∀ t ∈ ts, hasArc g t.1 t.2 = false ∧ (g.directed = false → hasArc g t.2 t.1 = false)) →
      ts.Pairwise (fun s t => s ≠ t ∧ (g.directed = false → s ≠ (t.2, t.1))) →
      ∃ G', ts.foldlM (fun g t => addEdge g t.1 t.2 (W t.1 t.2)) g = .ok G' ∧
        G'.vertices = g.vertices ∧ G'.directed = g.directed ∧ G'.weighted = g.weighted ∧
        Reachable G' ∧
        ∀ r, getAdj G' r = getAdj g r ++ ts.filterMap (fun t =>
          if t.1 = r then some (t.2, if g.weighted then W t.1 t.2 else 1)
          else if g.directed = false ∧ t.2 = r then
            some (t.1, if g.weighted then W t.1 t.2 else 1)
          else none) := by
  intro ts
  induction ts with
  | nil =>
      intro g hr _ _ _
      exact ⟨g, rfl, rfl, rfl, rfl, hr, fun r => by simp⟩
  | cons t rest ih =>
      intro g hr hvalid hfresh hpw
      obtain ⟨ht1, ht2, htne⟩ := hvalid t (by simp)
      obtain ⟨hf1, hf2⟩ := hfresh t (by simp)
      obtain ⟨hlen, hrange, hnodup, hsym, hone⟩ := reachable_wf g hr
      have hm1 : t.2 ∉ (getAdj g t.1).map Prod.fst := (hasArc_false_iff g t.1 t.2).mp hf1
      obtain ⟨hhead, htail⟩ := List.pairwise_cons.mp hpw
      have hstep : ∃ g1, addEdge g t.1 t.2 (W t.1 t.2) = .ok g1 ∧
          g1.vertices = g.vertices ∧ g1.directed = g.directed ∧ g1.weighted = g.weighted ∧
          getAdj g1 t.1 = getAdj g t.1 ++ [(t.2, if g.weighted then W t.1 t.2 else 1)] ∧
          (g.directed = false →
            getAdj g1 t.2 = getAdj g t.2 ++ [(t.1, if g.weighted then W t.1 t.2 else 1)]) ∧
          (∀ x, x ≠ t.1 → x ≠ t.2 → getAdj g1 x = getAdj g x) ∧
          (g.directed = true → ∀ x, x ≠ t.1 → getAdj g1 x = getAdj g x) := by
        unfold addEdge
        by_cases hwt : g.weighted
        · rw [if_pos hwt]
          simp only [if_pos hwt]
          obtain ⟨hfv, hfd, hfw, _⟩ := stepW_fields g t.1 t.2 (W t.1 t.2)
          obtain ⟨hru, hrv, hrx⟩ := stepW_rows g t.1 t.2 (W t.1 t.2) hlen ht1 ht2 htne
          refine ⟨stepW g t.1 t.2 (W t.1 t.2),
            addEdgeWeighted_eq_ok g t.1 t.2 (W t.1 t.2) ht1 ht2 htne,
            hfv, hfd, hfw, ?_, ?_, hrx, ?_⟩
          · rw [hru, setEntry_append_of_not_mem _ _ _ hm1]
          · intro hd
            have hm2 : t.1 ∉ (getAdj g t.2).map Prod.fst :=
              (hasArc_false_iff g t.2 t.1).mp (hf2 hd)
            rw [hrv, if_neg (by rw [hd]; exact Bool.false_ne_true),
              setEntry_append_of_not_mem _ _ _ hm2]
          · intro hd x hx
            by_cases hxv : x = t.2
            · rw [hxv, hrv, if_pos hd]
            · exact hrx x hx hxv
        · rw [if_neg hwt]
          have hwt' : g.weighted = false := Bool.not_eq_true _ ▸ hwt
          simp only [hwt', Bool.false_eq_true, if_false]
          obtain ⟨hfv, hfd, hfw, _⟩ := stepU_fields g t.1 t.2
          obtain ⟨hru, hrv, hrx⟩ := stepU_rows g t.1 t.2 hlen ht1 ht2 htne
          have hm1' : (t.2, (1 : ℚ)) ∉ getAdj g t.1 :=
            fun hc => hm1 (List.mem_map_of_mem Prod.fst hc)
          refine ⟨stepU g t.1 t.2,
            addEdgeUnweighted_eq_ok g t.1 t.2 (W t.1 t.2) ht1 ht2 htne,
            hfv, hfd, hfw.trans hwt', ?_, ?_, hrx, ?_⟩
          · rw [hru, if_neg hm1']
          · intro hd
            have hm2 : t.1 ∉ (getAdj g t.2).map Prod.fst :=
              (hasArc_false_iff g t.2 t.1).mp (hf2 hd)
            have hm2' : (t.1, (1 : ℚ)) ∉ getAdj g t.2 :=
              fun hc => hm2 (List.mem_map_of_mem Prod.fst hc)
            rw [hrv, if_neg (by rw [hd]; exact Bool.false_ne_true), if_neg hm2']
          · intro hd x hx
            by_cases hxv : x = t.2
            · rw [hxv, hrv, if_pos hd]
            · exact hrx x hx hxv
      obtain ⟨g1, hadd, hv1, hd1, hw1, hrowu, hrowv, hrowx, hrowxd⟩ := hstep
      have hr1 : Reachable g1 := Reachable.step _ _ _ hr hadd
      have hvalid1 : ∀ s ∈ rest, s.1 < g1.vertices ∧ s.2 < g1.vertices ∧ s.1 ≠ s.2 := by
        intro s hs
        obtain ⟨a, b, c⟩ := hvalid s (List.mem_cons_of_mem _ hs)
        rw [hv1]
        exact ⟨a, b, c⟩
      have hfresh1 : ∀ s ∈ rest, hasArc g1 s.1 s.2 = false ∧
          (g1.directed = false → hasArc g1 s.2 s.1 = false) := by
        intro s hs
        obtain ⟨o1, o2⟩ := hfresh s (List.mem_cons_of_mem _ hs)
        obtain ⟨hne_ts, hrev_ts⟩ := hhead s hs
        have ho1 := (hasArc_false_iff g s.1 s.2).mp o1
        by_cases hdg : g.directed = true
        · constructor
          · rw [hasArc_false_iff]
            by_cases hs1u : s.1 = t.1
            · rw [hs1u, hrowu, List.map_append]
              intro hc
              rcases List.mem_append.mp hc with hc | hc
              · exact (hs1u ▸ ho1) hc
              · rw [List.map_singleton, List.mem_singleton] at hc
                refine hne_ts.symm ?_
                have : s = (s.1, s.2) := rfl
                rw [this, hs1u, hc]
            · rw [hrowxd hdg s.1 hs1u]
              exact ho1
          · intro hc
            rw [hd1, hdg] at hc
            exact absurd hc (by simp)
        · have hdg' : g.directed = false := Bool.not_eq_true _ ▸ hdg
          have ho2 := (hasArc_false_iff g s.2 s.1).mp (o2 hdg')
          have hrowv' := hrowv hdg'
          have hrev := hrev_ts hdg'
          constructor
          · rw [hasArc_false_iff]
            by_cases hs1u : s.1 = t.1
            · rw [hs1u, hrowu, List.map_append]
              intro hc
              rcases List.mem_append.mp hc with hc | hc
              · exact (hs1u ▸ ho1) hc
              · rw [List.map_singleton, List.mem_singleton] at hc
                refine hne_ts.symm ?_
                have : s = (s.1, s.2) := rfl
                rw [this, hs1u, hc]
            · by_cases hs1v : s.1 = t.2
              · rw [hs1v, hrowv', List.map_append]
                intro hc
                rcases List.mem_append.mp hc with hc | hc
                · exact (hs1v ▸ ho1) hc
                · rw [List.map_singleton, List.mem_singleton] at hc
                  refine hrev ?_
                  have : s = (s.1, s.2) := rfl
                  rw [this, hs1v, hc]
              · rw [hrowx s.1 hs1u hs1v]
                exact ho1
          · intro _
            rw [hasArc_false_iff]
            by_cases hs2u : s.2 = t.1
            · rw [hs2u, hrowu, List.map_append]
              intro hc
              rcases List.mem_append.mp hc with hc | hc
              · exact (hs2u ▸ ho2) hc
              · rw [List.map_singleton, List.mem_singleton] at hc
                refine hrev ?_
                have : s = (s.1, s.2) := rfl
                rw [this, hs2u, hc]
            · by_cases hs2v : s.2 = t.2
              · rw [hs2v, hrowv', List.map_append]
                intro hc
                rcases List.mem_append.mp hc with hc | hc
                · exact (hs2v ▸ ho2) hc
                · rw [List.map_singleton, List.mem_singleton] at hc
                  refine hne_ts.symm ?_
                  have : s = (s.1, s.2) := rfl
                  rw [this, hs2v, hc]
              · rw [hrowx s.2 hs2u hs2v]
                exact ho2
      have hpw1 : rest.Pairwise (fun s t' => s ≠ t' ∧ (g1.directed = false → s ≠ (t'.2, t'.1))) := by
        refine htail.imp ?_
        intro a b hab
        exact ⟨hab.1, fun hd => hab.2 (by rw [← hd1]; exact hd)⟩
      obtain ⟨G', hfold, hv2, hd2, hw2, hr2, hrows⟩ := ih g1 hr1 hvalid1 hfresh1 hpw1
      refine ⟨G', ?_, hv2.trans hv1, hd2.trans hd1, hw2.trans hw1, hr2, ?_⟩
      · rw [List.foldlM_cons, hadd]
        exact hfold
      · intro r
        rw [hrows r]
        have hfun : (fun t' : Nat × Nat =>
            if t'.1 = r then some (t'.2, if g1.weighted then W t'.1 t'.2 else 1)
            else if g1.directed = false ∧ t'.2 = r then
              some (t'.1, if g1.weighted then W t'.1 t'.2 else 1)
            else none) =
            (fun t' : Nat × Nat =>
            if t'.1 = r then some (t'.2, if g.weighted then W t'.1 t'.2 else 1)
            else if g.directed = false ∧ t'.2 = r then
              some (t'.1, if g.weighted then W t'.1 t'.2 else 1)
            else none) := by
          funext t'
          rw [hw1, hd1]
        rw [hfun, List.filterMap_cons]
        by_cases hc1 : t.1 = r
        · rw [if_pos hc1, ← hc1, hrowu, List.append_assoc]
          rfl
        · rw [if_neg hc1]
          by_cases hc2 : g.directed = false ∧ t.2 = r
          · rw [if_pos hc2, ← hc2.2, hrowv hc2.1, List.append_assoc]
            rfl
          · rw [if_neg hc2]
            by_cases hdg : g.directed = true
            · rw [hrowxd hdg r (fun hx => hc1 hx.symm)]
            · have hdg' : g.directed = false := Bool.not_eq_true _ ▸ hdg
              have hc2' : t.2 ≠ r := fun hx => hc2 ⟨hdg', hx⟩
              rw [hrowx r (fun hx => hc1 hx.symm) (fun hx => hc2' hx.symm)]

theorem foldlM_guard {α : Type} (P : α → Prop) [DecidablePred P]
    (f : Graph → α → Except PyErr Graph) :
    ∀ (l : List α) (g : Graph),
      l.foldlM (fun g x => if P x then f g x else pure g) g =
      (l.filter (fun x => decide (P x))).foldlM f g := by
  intro l
  induction l with
  | nil => intro g; rfl
  | cons x rest ih =>
      intro g
      rw [List.foldlM_cons]
      by_cases hx : P x
      · rw [if_pos hx, List.filter_cons_of_pos (by simpa using hx), List.foldlM_cons]
        apply congrArg
        funext g'
        exact ih g'
      · rw [if_neg hx, List.filter_cons_of_neg (by simpa using hx)]
        have : (pure g >>= fun b => rest.foldlM (fun g x => if P x then f g x else pure g) b) =
            rest.foldlM (fun g x => if P x then f g x else pure g) g := rfl
        rw [this, ih g]

theorem foldlM_nested (L : Nat → List Nat) (f : Graph → Nat × Nat → Except PyErr Graph) :
    ∀ (us : List Nat) (g : Graph),
      us.foldlM (fun g i => (L i).foldlM (fun g j => f g (i, j)) g) g =
      ((us.map (fun i => (L i).map (fun j => (i, j)))).flatten).foldlM f g := by
  intro us
  induction us with
  | nil => intro g; rfl
  | cons i rest ih =>
      intro g
      rw [List.map_cons, List.flatten_cons, List.foldlM_append, List.foldlM_cons,
        List.foldlM_map]
      apply congrArg
      funext g'
      exact ih g'

theorem edgeVal_diag (G : Graph) (hwf : Wf G) (i : Nat) : edgeVal G i i = 0 := by
  obtain ⟨_, hrange, _, _, _⟩ := hwf
  unfold edgeVal
  cases hcase : lookupW (getAdj G i) i with
  | some w =>
      have := (hrange i _ (lookupW_mem _ _ _ hcase)).2
      simp at this
  | none => rfl

theorem edgeVal_symm (G : Graph) (hwf : Wf G) (hd : G.directed = false) (i j : Nat) :
    edgeVal G i j = edgeVal G j i := by
  obtain ⟨_, _, hnodup, hsym, _⟩ := hwf
  unfold edgeVal
  cases hcase : lookupW (getAdj G i) j with
  | some w =>
      have hmem : (j, w) ∈ getAdj G i := lookupW_mem _ _ _ hcase
      have hmem2 : (i, w) ∈ getAdj G j := (hsym hd i j w).mp hmem
      rw [lookupW_eq_some_of_mem_of_nodup _ _ _ (hnodup j) hmem2]
  | none =>
      cases hcase2 : lookupW (getAdj G j) i with
      | some w =>
          have hmem : (i, w) ∈ getAdj G j := lookupW_mem _ _ _ hcase2
          have hmem2 : (j, w) ∈ getAdj G i := (hsym hd j i w).mp hmem
          rw [lookupW_eq_some_of_mem_of_nodup _ _ _ (hnodup i) hmem2] at hcase
          exact absurd hcase (by simp)
      | none => rfl

theorem edgeVal_lookup_some (G : Graph) (r c : Nat) (w : ℚ)
    (h : lookupW (getAdj G r) c = some w) :
    edgeVal G r c = if G.weighted then w else 1 := by
  unfold edgeVal
  rw [h]

theorem edgeVal_lookup_none (G : Graph) (r c : Nat) (h : lookupW (getAdj G r) c = none) :
    edgeVal G r c = 0 := by
  unfold edgeVal
  rw [h]

theorem mem_row_iff_matrix (G : Graph) (hwf : Wf G) (hwnz : WNZ G) (r : Nat) (p : Nat × ℚ) :
    p ∈ getAdj G r ↔
      p.1 < G.vertices ∧ p.1 ≠ r ∧ mget (get_adjacency_matrix G) r p.1 ≠ 0 ∧
        p.2 = mget (get_adjacency_matrix G) r p.1 := by
  obtain ⟨hlen, hrange, hnodup, hsym, hone⟩ := hwf
  rw [mget_adjacency_matrix G ⟨hlen, hrange, hnodup, hsym, hone⟩ r p.1]
  constructor
  · intro hp
    have hlk : lookupW (getAdj G r) p.1 = some p.2 := by
      have hpp : ((p.1, p.2) : Nat × ℚ) = p := rfl
      rw [← hpp] at hp
      exact lookupW_eq_some_of_mem_of_nodup _ _ _ (hnodup r) hp
    have hval : edgeVal G r p.1 = p.2 := by
      rw [edgeVal_lookup_some G r p.1 p.2 hlk]
      by_cases hwt : G.weighted
      · rw [if_pos hwt]
      · rw [if_neg hwt]
        exact (hone (Bool.not_eq_true _ ▸ hwt) r p hp).symm
    refine ⟨(hrange r p hp).1, (hrange r p hp).2, ?_, hval.symm⟩
    rw [hval]
    exact hwnz r p hp
  · rintro ⟨h1, h2, h3, h4⟩
    cases hcase : lookupW (getAdj G r) p.1 with
    | none =>
        rw [edgeVal_lookup_none G r p.1 hcase] at h3
        exact absurd rfl h3
    | some w =>
        rw [edgeVal_lookup_some G r p.1 w hcase] at h4
        have hmem : (p.1, w) ∈ getAdj G r := lookupW_mem _ _ _ hcase
        have hw : w = p.2 := by
          by_cases hwt : G.weighted
          · rw [if_pos hwt] at h4
            exact h4.symm
          · rw [if_neg hwt] at h4
            rw [h4]
            exact hone (Bool.not_eq_true _ ▸ hwt) r _ hmem
        have hpp : p = (p.1, w) := by
          rw [hw]
        rw [hpp]
        exact hmem

theorem export_eq_of_rows (G G' : Graph)
    (hnd : ∀ r, ((getAdj G r).map Prod.fst).Nodup)
    (hnd' : ∀ r, ((getAdj G' r).map Prod.fst).Nodup)
    (hv : G'.vertices = G.vertices)
    (hmem : ∀ r, r < G.vertices → ∀ p, p ∈ getAdj G' r ↔ p ∈ getAdj G r) :
    get_adjacency_list G' = get_adjacency_list G := by
  unfold get_adjacency_list
  rw [hv]
  apply List.map_congr_left
  intro r hr
  apply strict_fst_imp_eq
  · exact sortByFst_strict _ (hnd' r)
  · exact sortByFst_strict _ (hnd r)
  · intro p
    rw [mem_sortByFst, mem_sortByFst]
    exact hmem r (List.mem_range.mp hr) p

theorem mget_zero_of_ge (M : List (List ℚ)) (n : Nat) (hs : RectShape M n n) (r c : Nat)
    (h : n ≤ r ∨ n ≤ c) : mget M r c = 0 := by
  obtain ⟨h1, h2⟩ := hs
  by_cases hr : r < n
  · have hc : n ≤ c := by
      rcases h with h | h
      · omega
      · exact h
    have hrl : r < M.length := h1 ▸ hr
    have hrow : M.getD r [] = M[r] := by
      rw [List.getD_eq_getElem?_getD, List.getElem?_eq_getElem hrl]
      rfl
    unfold mget
    rw [hrow, List.getD_eq_getElem?_getD,
      List.getElem?_eq_none (l := M[r]) (by rw [h2 _ (List.getElem_mem hrl)]; omega)]
    rfl
  · have hrow : M.getD r [] = [] := by
      rw [List.getD_eq_getElem?_getD, List.getElem?_eq_none (l := M) (by omega)]
      rfl
    unfold mget
    rw [hrow]
    rfl

theorem roundtrip_core (G : Graph) (hr : Reachable G) (hwnz : WNZ G) (hn : 0 < G.vertices) :
    ∃ G', from_adjacency_matrix (get_adjacency_matrix G) G.directed = .ok G' ∧
      get_adjacency_list G' = get_adjacency_list G := by
  have hwf' := reachable_wf G hr
  obtain ⟨hlen, hrange, hnodup, hsym, hone⟩ := reachable_wf G hr
  obtain ⟨hshape1, hshape2⟩ := adjacency_matrix_shape G hwf'
  have hentry : ∀ r c, mget (get_adjacency_matrix G) r c = edgeVal G r c :=
    fun r c => mget_adjacency_matrix G hwf' r c
  unfold from_adjacency_matrix
  rw [if_neg (show ¬ (get_adjacency_matrix G = []) from fun hc => by
    rw [hc] at hshape1; simp at hshape1; omega)]
  dsimp only
  rw [if_neg (not_not_intro (List.all_eq_true.mpr (fun row hrow =>
    decide_eq_true ((hshape2 row hrow).trans hshape1.symm))))]
  rw [if_neg (not_not_intro (List.all_eq_true.mpr (fun i _ =>
    decide_eq_true (by rw [hentry i i, edgeVal_diag G hwf' i]))))]
  rw [if_neg (show ¬ (G.directed = false ∧ ¬ _) from fun hc => hc.2
    (List.all_eq_true.mpr (fun i _ => List.all_eq_true.mpr (fun j _ =>
      decide_eq_true (by rw [hentry i j, hentry j i, edgeVal_symm G hwf' hc.1 i j])))))]
  have hMshape : RectShape (get_adjacency_matrix G) (get_adjacency_matrix G).length
      (get_adjacency_matrix G).length := by
    rw [hshape1]
    exact ⟨hshape1, hshape2⟩
  have hval : ∀ w : Bool, (∀ i j, mget (get_adjacency_matrix G) i j ≠ 0 →
      ((List.range (get_adjacency_matrix G).length).any (fun i =>
        (List.range (get_adjacency_matrix G).length).any (fun j =>
          decide (mget (get_adjacency_matrix G) i j ≠ 0 ∧
            mget (get_adjacency_matrix G) i j ≠ 1)))) = w →
      (if w = true then mget (get_adjacency_matrix G) i j else 1) =
        mget (get_adjacency_matrix G) i j) := by
    intro w i j hij hw
    cases w with
    | true => rw [if_pos rfl]
    | false =>
        rw [if_neg (by simp)]
        have hib : i < (get_adjacency_matrix G).length := by
          by_contra hc
          exact hij (mget_zero_of_ge _ _ hMshape i j (Or.inl (by omega)))
        have hjb : j < (get_adjacency_matrix G).length := by
          by_contra hc
          exact hij (mget_zero_of_ge _ _ hMshape i j (Or.inr (by omega)))
        have hall := (List.any_eq_true (l := List.range (get_adjacency_matrix G).length)).not.mp
          (by rw [hw]; simp)
        push_neg at hall
        have h2 := hall i (List.mem_range.mpr hib)
        have h6 : ∀ x, x < (get_adjacency_matrix G).length →
            ¬ mget (get_adjacency_matrix G) i x = 0 →
            mget (get_adjacency_matrix G) i x = 1 := by
          simpa using h2
        exact (h6 j hjb hij).symm
  by_cases hd : G.directed = true
  · rw [if_pos hd]
    have hguard : ∀ (i : Nat) (g : Graph),
        (List.range (get_adjacency_matrix G).length).foldlM
          (fun g j => if i ≠ j ∧ mget (get_adjacency_matrix G) i j ≠ 0
            then addEdge g i j (mget (get_adjacency_matrix G) i j) else pure g) g =
        ((List.range (get_adjacency_matrix G).length).filter
          (fun j => decide (i ≠ j ∧ mget (get_adjacency_matrix G) i j ≠ 0))).foldlM
          (fun g j => addEdge g i j (mget (get_adjacency_matrix G) i j)) g :=
      fun i g => foldlM_guard _ _ _ g
    have houter : ∀ g0 : Graph,
        (List.range (get_adjacency_matrix G).length).foldlM
          (fun g i => (List.range (get_adjacency_matrix G).length).foldlM
            (fun g j => if i ≠ j ∧ mget (get_adjacency_matrix G) i j ≠ 0
              then addEdge g i j (mget (get_adjacency_matrix G) i j) else pure g) g) g0 =
        (((List.range (get_adjacency_matrix G).length).map (fun i =>
          ((List.range (get_adjacency_matrix G).length).filter
            (fun j => decide (i ≠ j ∧ mget (get_adjacency_matrix G) i j ≠ 0))).map
              (fun j => (i, j)))).flatten).foldlM
          (fun g t => addEdge g t.1 t.2 (mget (get_adjacency_matrix G) t.1 t.2)) g0 := by
      intro g0
      rw [congrArg (fun F => List.foldlM F g0 (List.range (get_adjacency_matrix G).length))
        (funext fun g => funext fun i => hguard i g)]
      exact foldlM_nested
        (fun i => (List.range (get_adjacency_matrix G).length).filter
          (fun j => decide (i ≠ j ∧ mget (get_adjacency_matrix G) i j ≠ 0)))
        (fun g t => addEdge g t.1 t.2 (mget (get_adjacency_matrix G) t.1 t.2))
        (List.range (get_adjacency_matrix G).length) g0
    have hmempairs : ∀ t : Nat × Nat,
        t ∈ ((List.range (get_adjacency_matrix G).length).map (fun i =>
          ((List.range (get_adjacency_matrix G).length).filter
            (fun j => decide (i ≠ j ∧ mget (get_adjacency_matrix G) i j ≠ 0))).map
              (fun j => (i, j)))).flatten ↔
        t.1 < (get_adjacency_matrix G).length ∧ t.2 < (get_adjacency_matrix G).length ∧
          t.1 ≠ t.2 ∧ mget (get_adjacency_matrix G) t.1 t.2 ≠ 0 := by
      intro t
      rw [List.mem_flatten]
      constructor
      · rintro ⟨l, hl, ht⟩
        rcases List.mem_map.mp hl with ⟨i, hi, rfl⟩
        rcases List.mem_map.mp ht with ⟨j, hj, rfl⟩
        rw [List.mem_filter, List.mem_range] at hj
        have hj2 := of_decide_eq_true hj.2
        exact ⟨List.mem_range.mp hi, hj.1, hj2.1, hj2.2⟩
      · rintro ⟨h1, h2, h3, h4⟩
        refine ⟨_, List.mem_map.mpr ⟨t.1, List.mem_range.mpr h1, rfl⟩,
          List.mem_map.mpr ⟨t.2, ?_, rfl⟩⟩
        rw [List.mem_filter, List.mem_range]
        exact ⟨h2, decide_eq_true ⟨h3, h4⟩⟩
    have hpwlex := flatten_lex_pairwise (get_adjacency_matrix G).length
      (fun i => (List.range (get_adjacency_matrix G).length).filter
        (fun j => decide (i ≠ j ∧ mget (get_adjacency_matrix G) i j ≠ 0)))
      (fun i => (List.pairwise_lt_range _).filter _)
    obtain ⟨G', hfold, hv', hd', hw', hr', hrows⟩ := insertAll_rows
      (fun i j => mget (get_adjacency_matrix G) i j)
      (((List.range (get_adjacency_matrix G).length).map (fun i =>
        ((List.range (get_adjacency_matrix G).length).filter
          (fun j => decide (i ≠ j ∧ mget (get_adjacency_matrix G) i j ≠ 0))).map
            (fun j => (i, j)))).flatten)
      (initGraph (get_adjacency_matrix G).length G.directed _)
      (Reachable.init _ _ _)
      (fun t ht => by
        obtain ⟨a, b, c, _⟩ := (hmempairs t).mp ht
        exact ⟨a, b, c⟩)
      (fun t _ => ⟨by unfold hasArc; rw [getAdj_initGraph]; rfl,
        fun _ => by unfold hasArc; rw [getAdj_initGraph]; rfl⟩)
      (hpwlex.imp (fun hab => ⟨fun hc => lexLt_irrefl _ (hc ▸ hab),
        fun hdf => absurd (show G.directed = false from hdf) (by rw [hd]; simp)⟩))
    refine ⟨G', ?_, ?_⟩
    · rw [houter _]
      exact hfold
    · obtain ⟨_, _, hnodup', _, _⟩ := reachable_wf G' hr'
      apply export_eq_of_rows G G' hnodup hnodup'
      · rw [hv']
        exact hshape1
      · intro r hrlt p
        rw [hrows r, getAdj_initGraph, List.nil_append, List.mem_filterMap,
          mem_row_iff_matrix G hwf' hwnz r p]
        simp only [weighted_initGraph, directed_initGraph]
        constructor
        · rintro ⟨t, ht, hft⟩
          obtain ⟨m1, m2, m3, m4⟩ := (hmempairs t).mp ht
          by_cases hc1 : t.1 = r
          · rw [if_pos hc1] at hft
            rw [hval _ t.1 t.2 m4 rfl] at hft
            injection hft with hft
            rw [← hft, ← hc1]
            exact ⟨hshape1 ▸ m2, fun hx => m3 hx.symm, m4, rfl⟩
          · rw [if_neg hc1,
              if_neg (fun hc => absurd (show G.directed = false from hc.1)
                (by rw [hd]; simp))] at hft
            exact absurd hft (by simp)
        · rintro ⟨h1, h2, h3, h4⟩
          refine ⟨(r, p.1), (hmempairs _).mpr
            ⟨by rw [hshape1]; exact hrlt, by rw [hshape1]; exact h1,
              fun hx => h2 hx.symm, h3⟩, ?_⟩
          rw [if_pos rfl, hval _ r p.1 h3 rfl]
          have : p = (p.1, p.2) := rfl
          rw [this, h4]
  · rw [if_neg hd]
    have hdf : G.directed = false := Bool.not_eq_true _ ▸ hd
    have hMsym : ∀ a b, mget (get_adjacency_matrix G) a b = mget (get_adjacency_matrix G) b a := by
      intro a b
      rw [hentry a b, hentry b a, edgeVal_symm G hwf' hdf a b]
    have hmempy : ∀ a b j : Nat, j ∈ pyRange a b ↔ a ≤ j ∧ j < b := by
      intro a b j
      unfold pyRange
      rw [List.mem_range']
      constructor
      · rintro ⟨i, hi, rfl⟩
        omega
      · rintro ⟨h1, h2⟩
        exact ⟨j - a, by omega, by omega⟩
    have hguard : ∀ (i : Nat) (g : Graph),
        (pyRange (i + 1) (get_adjacency_matrix G).length).foldlM
          (fun g j => if mget (get_adjacency_matrix G) i j ≠ 0
            then addEdge g i j (mget (get_adjacency_matrix G) i j) else pure g) g =
        ((pyRange (i + 1) (get_adjacency_matrix G).length).filter
          (fun j => decide (mget (get_adjacency_matrix G) i j ≠ 0))).foldlM
          (fun g j => addEdge g i j (mget (get_adjacency_matrix G) i j)) g :=
      fun i g => foldlM_guard _ _ _ g
    have houter : ∀ g0 : Graph,
        (List.range (get_adjacency_matrix G).length).foldlM
          (fun g i => (pyRange (i + 1) (get_adjacency_matrix G).length).foldlM
            (fun g j => if mget (get_adjacency_matrix G) i j ≠ 0
              then addEdge g i j (mget (get_adjacency_matrix G) i j) else pure g) g) g0 =
        (((List.range (get_adjacency_matrix G).length).map (fun i =>
          ((pyRange (i + 1) (get_adjacency_matrix G).length).filter
            (fun j => decide (mget (get_adjacency_matrix G) i j ≠ 0))).map
              (fun j => (i, j)))).flatten).foldlM
          (fun g t => addEdge g t.1 t.2 (mget (get_adjacency_matrix G) t.1 t.2)) g0 := by
      intro g0
      rw [congrArg (fun F => List.foldlM F g0 (List.range (get_adjacency_matrix G).length))
        (funext fun g => funext fun i => hguard i g)]
      exact foldlM_nested
        (fun i => (pyRange (i + 1) (get_adjacency_matrix G).length).filter
          (fun j => decide (mget (get_adjacency_matrix G) i j ≠ 0)))
        (fun g t => addEdge g t.1 t.2 (mget (get_adjacency_matrix G) t.1 t.2))
        (List.range (get_adjacency_matrix G).length) g0
    have hmempairs : ∀ t : Nat × Nat,
        t ∈ ((List.range (get_adjacency_matrix G).length).map (fun i =>
          ((pyRange (i + 1) (get_adjacency_matrix G).length).filter
            (fun j => decide (mget (get_adjacency_matrix G) i j ≠ 0))).map
              (fun j => (i, j)))).flatten ↔
        t.1 < (get_adjacency_matrix G).length ∧ t.2 < (get_adjacency_matrix G).length ∧
          t.1 < t.2 ∧ mget (get_adjacency_matrix G) t.1 t.2 ≠ 0 := by
      intro t
      rw [List.mem_flatten]
      constructor
      · rintro ⟨l, hl, ht⟩
        rcases List.mem_map.mp hl with ⟨i, hi, rfl⟩
        rcases List.mem_map.mp ht with ⟨j, hj, rfl⟩
        rw [List.mem_filter] at hj
        have hj1 := (hmempy (i + 1) _ j).mp hj.1
        have hj2 := of_decide_eq_true hj.2
        exact ⟨List.mem_range.mp hi, hj1.2, by omega, hj2⟩
      · rintro ⟨h1, h2, h3, h4⟩
        refine ⟨_, List.mem_map.mpr ⟨t.1, List.mem_range.mpr h1, rfl⟩,
          List.mem_map.mpr ⟨t.2, ?_, rfl⟩⟩
        rw [List.mem_filter]
        exact ⟨(hmempy (t.1 + 1) _ t.2).mpr ⟨by omega, h2⟩, decide_eq_true h4⟩
    have hpwlex := flatten_lex_pairwise (get_adjacency_matrix G).length
      (fun i => (pyRange (i + 1) (get_adjacency_matrix G).length).filter
        (fun j => decide (mget (get_adjacency_matrix G) i j ≠ 0)))
      (fun i => (List.pairwise_lt_range' _ _).filter _)
    obtain ⟨G', hfold, hv', hd', hw', hr', hrows⟩ := insertAll_rows
      (fun i j => mget (get_adjacency_matrix G) i j)
      (((List.range (get_adjacency_matrix G).length).map (fun i =>
        ((pyRange (i + 1) (get_adjacency_matrix G).length).filter
          (fun j => decide (mget (get_adjacency_matrix G) i j ≠ 0))).map
            (fun j => (i, j)))).flatten)
      (initGraph (get_adjacency_matrix G).length G.directed _)
      (Reachable.init _ _ _)
      (fun t ht => by
        obtain ⟨a, b, c, _⟩ := (hmempairs t).mp ht
        exact ⟨a, b, by omega⟩)
      (fun t _ => ⟨by unfold hasArc; rw [getAdj_initGraph]; rfl,
        fun _ => by unfold hasArc; rw [getAdj_initGraph]; rfl⟩)
      (hpwlex.imp_of_mem (fun ha hb hab => ⟨fun hc => lexLt_irrefl _ (hc ▸ hab),
        fun _ hc => by
          obtain ⟨_, _, c1, _⟩ := (hmempairs _).mp ha
          obtain ⟨_, _, c2, _⟩ := (hmempairs _).mp hb
          have e1 := congrArg Prod.fst hc
          have e2 := congrArg Prod.snd hc
          simp only at e1 e2
          omega⟩))
    refine ⟨G', ?_, ?_⟩
    · rw [houter _]
      exact hfold
    · obtain ⟨_, _, hnodup', _, _⟩ := reachable_wf G' hr'
      apply export_eq_of_rows G G' hnodup hnodup'
      · rw [hv']
        exact hshape1
      · intro r hrlt p
        rw [hrows r, getAdj_initGraph, List.nil_append, List.mem_filterMap,
          mem_row_iff_matrix G hwf' hwnz r p]
        simp only [weighted_initGraph, directed_initGraph]
        constructor
        · rintro ⟨t, ht, hft⟩
          obtain ⟨m1, m2, m3, m4⟩ := (hmempairs t).mp ht
          by_cases hc1 : t.1 = r
          · rw [if_pos hc1] at hft
            rw [hval _ t.1 t.2 m4 rfl] at hft
            injection hft with hft
            rw [← hft, ← hc1]
            exact ⟨by rw [hshape1] at m2; exact m2, by show t.2 ≠ t.1; omega, m4, rfl⟩
          · rw [if_neg hc1] at hft
            by_cases hc2 : G.directed = false ∧ t.2 = r
            · rw [if_pos hc2] at hft
              rw [hval _ t.1 t.2 m4 rfl] at hft
              injection hft with hft
              rw [← hft]
              obtain ⟨_, hc2⟩ := hc2
              refine ⟨by rw [hshape1] at m1; exact m1,
                by show t.1 ≠ r; omega, ?_, ?_⟩
              · show mget (get_adjacency_matrix G) r t.1 ≠ 0
                rw [← hc2, hMsym t.2 t.1]
                exact m4
              · show mget (get_adjacency_matrix G) t.1 t.2 =
                  mget (get_adjacency_matrix G) r t.1
                rw [← hc2]
                exact hMsym t.1 t.2
            · rw [if_neg hc2] at hft
              exact absurd hft (by simp)
        · rintro ⟨h1, h2, h3, h4⟩
          rcases Nat.lt_or_ge r p.1 with hrp | hrp
          · refine ⟨(r, p.1), (hmempairs _).mpr
              ⟨by rw [hshape1]; exact hrlt, by rw [hshape1]; exact h1, hrp, h3⟩, ?_⟩
            rw [if_pos rfl, hval _ r p.1 h3 rfl]
            have hpp : p = (p.1, p.2) := rfl
            rw [hpp, h4]
          · have hrp2 : p.1 < r := by omega
            refine ⟨(p.1, r), (hmempairs _).mpr
              ⟨by rw [hshape1]; exact h1, by rw [hshape1]; exact hrlt, hrp2, ?_⟩, ?_⟩
            · rw [hMsym p.1 r]
              exact h3
            · rw [if_neg (by simp only; omega), if_pos ⟨hdf, rfl⟩,
                hval _ p.1 r (by rw [hMsym p.1 r]; exact h3) rfl]
              have hpp : p = (p.1, p.2) := rfl
              rw [hpp, h4, hMsym r p.1]

/-!  ## The claims -/

/-- Claim C1: the spec says `connected_components` returns, for every graph,
the (weakly) connected components, each sorted ascending and ordered by
smallest vertex.  The code violates this: the main loop body
(algorithmics.py lines 158-165) reads the variable `u`, which is unbound for
undirected graphs, so every undirected graph with at least one vertex raises
`UnboundLocalError` — in particular the spec's own 5-vertex undirected
example fails instead of returning `[[0, 1, 2], [3, 4]]`.  The directed
3-vertex example happens to return `[[0, 1, 2]]` because there `u` is left
bound to `n - 1` by the symmetrisation loop and the graph is weakly
connected. -/
theorem C1_connected_components_bug :
    (∀ G : Graph, G.directed = false → 0 < G.vertices →
      connected_components G = .error .unboundLocalError) ∧
    (from_edges 5 [(0, 1, 1), (1, 2, 1), (3, 4, 1)] false).map connected_components
      = .ok (.error .unboundLocalError) ∧
    (from_edges 3 [(0, 1, 1), (1, 2, 1)] true).map connected_components
      = .ok (.ok [[0, 1, 2]]) :=
  ⟨fun G hd hn => connected_components_undirected_err G hd hn, by decide, by decide⟩

/-- Witness for C1 at a concrete input. -/
theorem C1_witness :
    connected_components (initGraph 1 false false) = .error .unboundLocalError :=
  C1_connected_components_bug.1 (initGraph 1 false false) rfl (by decide)

/-- Claim C2: the spec says `components_with_stats` returns one record per
component with node, edge and smallest-vertex statistics, sorted by
`(-node_count, -edge_count, smallest_vertex)`.  Because it starts from
`connected_components`, it inherits that function's `UnboundLocalError` on
every undirected graph with at least one vertex; the spec's undirected
5-vertex example fails instead of producing the two records.  The directed
example yields the claimed single record with `edge_count = 2`. -/
theorem C2_components_with_stats_bug :
    (∀ G : Graph, G.directed = false → 0 < G.vertices →
      components_with_stats G = .error .unboundLocalError) ∧
    (from_edges 5 [(0, 1, 1), (1, 2, 1), (3, 4, 1)] false).map components_with_stats
      = .ok (.error .unboundLocalError) ∧
    (from_edges 3 [(0, 1, 1), (1, 2, 1)] true).map components_with_stats
      = .ok (.ok [⟨[0, 1, 2], 3, 2, 0⟩]) := by
  refine ⟨?_, by decide, by decide⟩
  intro G hd hn
  unfold components_with_stats
  rw [connected_components_undirected_err G hd hn]
  rfl

/-- Witness for C2 at a concrete input. -/
theorem C2_witness :
    components_with_stats (initGraph 1 false false) = .error .unboundLocalError :=
  C2_components_with_stats_bug.1 (initGraph 1 false false) rfl (by decide)

/-- Claim C9: `bfs` fails with an out-of-range error exactly when the start
vertex is invalid; otherwise it performs the queue-based traversal that marks
vertices at enqueue time (so no vertex is ever visited twice — the returned
order is duplicate-free) over the ascending sorted adjacency export, and on
the directed example graph `bfs(graph, 0)` returns `[0, 1, 2]`. -/
theorem C9_bfs (G : Graph) (start : Nat) :
    (¬ start < G.vertices → bfs G start = .error .indexError) ∧
    (start < G.vertices → ∃ l, bfs G start = .ok l ∧ l.Nodup) ∧
    (from_edges 3 [(0, 1, 1), (1, 2, 1)] true).map (fun g => bfs g 0)
      = .ok (.ok [0, 1, 2]) := by
  refine ⟨?_, ?_, by decide⟩
  · intro h
    unfold bfs
    rw [if_pos h]
  · intro h
    unfold bfs
    rw [if_neg (not_not_intro h)]
    refine ⟨_, rfl, ?_⟩
    have hmark : ∀ x ∈ [start],
        ((List.replicate G.vertices false).set start true).getD x true = true := by
      intro x hx
      rw [List.mem_singleton.mp hx]
      exact getD_set_true _ start
    exact (bfsLoop_nodup _ G.vertices [start] _ hmark (List.nodup_singleton _)).1

/-- Witness for C9 at concrete inputs. -/
theorem C9_witness :
    bfs (initGraph 2 true false) 2 = .error .indexError ∧
    ∃ l, bfs (initGraph 2 true false) 0 = .ok l ∧ l.Nodup :=
  ⟨(C9_bfs (initGraph 2 true false) 2).1 (by decide),
    (C9_bfs (initGraph 2 true false) 0).2.1 (by decide)⟩

/-- Claim C10: constructing a graph with `vertices = 0` succeeds (only
negative counts are rejected), and on the resulting empty graph every export
is empty and `connected_components` returns the empty list without error. -/
theorem C10_zero_vertex (n : Int) (d w : Bool) :
    ((mkGraph n d w).isOk ↔ 0 ≤ n) ∧
    mkGraph 0 d w = .ok (initGraph 0 d w) ∧
    get_adjacency_list (initGraph 0 d w) = [] ∧
    get_adjacency_matrix (initGraph 0 d w) = [] ∧
    get_incidence_matrix (initGraph 0 d w) = [] ∧
    connected_components (initGraph 0 d w) = .ok [] := by
  refine ⟨?_, rfl, rfl, rfl, ?_, ?_⟩
  · unfold mkGraph
    by_cases hn : n < 0
    · rw [if_pos hn]
      rw [show (Except.error PyErr.valueError : Except PyErr Graph).isOk = false from rfl]
      constructor
      · intro hc
        exact absurd hc (by simp)
      · intro hc
        omega
    · rw [if_neg hn]
      rw [show (Except.ok (initGraph n.toNat d w) : Except PyErr Graph).isOk = true from rfl]
      constructor
      · intro _
        omega
      · intro _
        rfl
  · cases d <;> rfl
  · cases d <;> rfl

/-- Witness for C10 at a concrete input. -/
theorem C10_witness :
    ((mkGraph 3 false true).isOk ↔ (0 : Int) ≤ 3) ∧
    connected_components (initGraph 0 false true) = .ok [] :=
  ⟨(C10_zero_vertex 3 false true).1, (C10_zero_vertex 3 false true).2.2.2.2.2⟩

/-- Claim C3: `add_edge` fails with an out-of-range error when an endpoint is
not in `[0, vertexCount)`, fails with an invalid-argument error on a
self-loop, and otherwise succeeds, inserting the edge (with the mirrored
reverse edge for undirected graphs).  Validation precedes every write, so a
failing call returns only the error and no mutated state exists — the
insertion is atomic by construction of the functional model. -/
theorem C3_addEdge_contract (G : Graph) (u v : Nat) (w : ℚ) (hr : Reachable G) :
    (¬ (u < G.vertices ∧ v < G.vertices) → addEdge G u v w = .error .indexError) ∧
    (u < G.vertices → v < G.vertices → u = v → addEdge G u v w = .error .valueError) ∧
    (u < G.vertices → v < G.vertices → u ≠ v →
      ∃ G', addEdge G u v w = .ok G' ∧
        (v, if G.weighted then w else 1) ∈ getAdj G' u ∧
        (G.directed = false → (u, if G.weighted then w else 1) ∈ getAdj G' v)) := by
  obtain ⟨hlen, _, hnodup, _, _⟩ := reachable_wf G hr
  unfold addEdge
  by_cases hwt : G.weighted
  · rw [if_pos hwt]
    refine ⟨(addEdgeWeighted_err G u v w).1, (addEdgeWeighted_err G u v w).2, ?_⟩
    intro hu hv hne
    rw [addEdgeWeighted_eq_ok G u v w hu hv hne]
    obtain ⟨hru, hrv, _⟩ := stepW_rows G u v w hlen hu hv hne
    rw [if_pos hwt]
    refine ⟨_, rfl, ?_, ?_⟩
    · rw [hru]
      exact setEntry_mem_self _ _ _
    · intro hd
      rw [hrv, if_neg (by simp [hd])]
      exact setEntry_mem_self _ _ _
  · rw [if_neg hwt]
    have hwt' : G.weighted = false := Bool.not_eq_true _ ▸ hwt
    refine ⟨(addEdgeUnweighted_err G u v w).1, (addEdgeUnweighted_err G u v w).2, ?_⟩
    intro hu hv hne
    rw [addEdgeUnweighted_eq_ok G u v w hu hv hne]
    obtain ⟨hru, hrv, _⟩ := stepU_rows G u v hlen hu hv hne
    rw [if_neg (by simp [hwt'])]
    refine ⟨_, rfl, ?_, ?_⟩
    · rw [hru]
      by_cases hm : (v, (1 : ℚ)) ∈ getAdj G u
      · rw [if_pos hm]
        exact hm
      · rw [if_neg hm]
        exact List.mem_append.mpr (Or.inr (by simp))
    · intro hd
      rw [hrv, if_neg (by simp [hd])]
      by_cases hm : (u, (1 : ℚ)) ∈ getAdj G v
      · rw [if_pos hm]
        exact hm
      · rw [if_neg hm]
        exact List.mem_append.mpr (Or.inr (by simp))

/-- Witness for C3 at a concrete input. -/
theorem C3_witness :
    addEdge (initGraph 2 false false) 0 2 1 = .error .indexError ∧
    addEdge (initGraph 3 false false) 2 2 1 = .error .valueError ∧
    ∃ G', addEdge (initGraph 2 false false) 0 1 1 = .ok G' ∧
      (1, if (initGraph 2 false false).weighted then (1 : ℚ) else 1) ∈ getAdj G' 0 ∧
      ((initGraph 2 false false).directed = false →
        (0, if (initGraph 2 false false).weighted then (1 : ℚ) else 1) ∈ getAdj G' 1) :=
  ⟨(C3_addEdge_contract (initGraph 2 false false) 0 2 1 (Reachable.init 2 false false)).1
      (by decide),
    (C3_addEdge_contract (initGraph 3 false false) 2 2 1 (Reachable.init 3 false false)).2.1
      (by decide) (by decide) rfl,
    (C3_addEdge_contract (initGraph 2 false false) 0 1 1 (Reachable.init 2 false false)).2.2
      (by decide) (by decide) (by decide)⟩

/-- Claim C4: every reachable graph state satisfies the data-model
invariants (`Wf`): all rows exist, no self-loops, undirected symmetry with
equal weight, and no duplicated neighbour in a row.  Consequently the
adjacency matrix has an all-zero diagonal, and a successful insertion into an
undirected graph is observable mirrored in the adjacency-list export. -/
theorem C4_reachable_invariants (G : Graph) (hr : Reachable G) :
    Wf G ∧
    (∀ i, mget (get_adjacency_matrix G) i i = 0) ∧
    (∀ u v w G', G.directed = false → addEdge G u v w = .ok G' →
      (u, if G.weighted then w else 1) ∈ (get_adjacency_list G').getD v []) := by
  have hwf := reachable_wf G hr
  refine ⟨hwf, ?_, ?_⟩
  · intro i
    rw [mget_adjacency_matrix G hwf i i, edgeVal_diag G hwf i]
  · intro u v w G' hd hok
    obtain ⟨hlen, _, hnodup, _, _⟩ := hwf
    obtain ⟨hu, hv, hne, hcase⟩ := addEdge_ok_inv G u v w G' hok
    have hmain : G'.vertices = G.vertices ∧
        (u, if G.weighted then w else 1) ∈ getAdj G' v := by
      rcases hcase with ⟨hwt, he⟩ | ⟨hwt, he⟩
      · obtain ⟨hru, hrv, _⟩ := stepW_rows G u v w hlen hu hv hne
        rw [he]
        refine ⟨(stepW_fields G u v w).1, ?_⟩
        rw [if_pos hwt, hrv, if_neg (show ¬ G.directed = true by simp [hd])]
        exact setEntry_mem_self _ _ _
      · obtain ⟨hru, hrv, _⟩ := stepU_rows G u v hlen hu hv hne
        rw [he]
        refine ⟨(stepU_fields G u v).1, ?_⟩
        rw [if_neg (show ¬ G.weighted = true by simp [hwt]), hrv,
          if_neg (show ¬ G.directed = true by simp [hd])]
        by_cases hm : (u, (1 : ℚ)) ∈ getAdj G v
        · rw [if_pos hm]
          exact hm
        · rw [if_neg hm]
          exact List.mem_append.mpr (Or.inr (by simp))
    rw [export_row G' v (by rw [hmain.1]; exact hv)]
    exact (mem_sortByFst _ _).mpr hmain.2

/-- Witness for C4 at a concrete input. -/
theorem C4_witness :
    Wf (initGraph 2 false false) ∧
    mget (get_adjacency_matrix (initGraph 2 false false)) 0 0 = 0 :=
  ⟨(C4_reachable_invariants (initGraph 2 false false) (Reachable.init 2 false false)).1,
    (C4_reachable_invariants (initGraph 2 false false) (Reachable.init 2 false false)).2.1 0⟩

/-- Claim C7: re-inserting an existing edge of an explicit-weight graph
overwrites the stored weight in place — the neighbour list keeps its length
and now holds the new weight, the undirected mirror entry likewise — and
inserting `(u, v, w1)` followed by `(u, v, w2)` leaves exactly the same state
as inserting `(u, v, w2)` alone. -/
theorem C7_weighted_overwrite (G : Graph) (u v : Nat) (w1 w2 : ℚ) (hr : Reachable G)
    (hw : G.weighted = true) (hu : u < G.vertices) (hv : v < G.vertices) (hne : u ≠ v) :
    (∀ wold, lookupW (getAdj G u) v = some wold →
      ∃ G', addEdge G u v w2 = .ok G' ∧
        (getAdj G' u).length = (getAdj G u).length ∧ (v, w2) ∈ getAdj G' u ∧
        (G.directed = false → (getAdj G' v).length = (getAdj G v).length ∧
          (u, w2) ∈ getAdj G' v)) ∧
    (∀ G1 G2 G2', addEdge G u v w1 = .ok G1 → addEdge G1 u v w2 = .ok G2 →
      addEdge G u v w2 = .ok G2' → G2 = G2') := by
  obtain ⟨hlen, _, hnodup, hsym, _⟩ := reachable_wf G hr
  constructor
  · intro wold hlk
    have hmem : (v, wold) ∈ getAdj G u := lookupW_mem _ _ _ hlk
    have hmf : v ∈ (getAdj G u).map Prod.fst := List.mem_map_of_mem Prod.fst hmem
    obtain ⟨hru, hrv, _⟩ := stepW_rows G u v w2 hlen hu hv hne
    refine ⟨stepW G u v w2, ?_, ?_, ?_, ?_⟩
    · unfold addEdge
      rw [if_pos hw]
      exact addEdgeWeighted_eq_ok G u v w2 hu hv hne
    · rw [hru, setEntry_length, if_pos hmf]
    · rw [hru]
      exact setEntry_mem_self _ _ _
    · intro hd
      have hmem2 : (u, wold) ∈ getAdj G v := (hsym hd u v wold).mp hmem
      have hmf2 : u ∈ (getAdj G v).map Prod.fst := List.mem_map_of_mem Prod.fst hmem2
      rw [hrv, if_neg (by simp [hd])]
      exact ⟨by rw [setEntry_length, if_pos hmf2], setEntry_mem_self _ _ _⟩
  · intro G1 G2 G2' h1 h2 h2'
    rw [show addEdge G u v w1 = addEdgeWeighted G u v w1 from by unfold addEdge; rw [if_pos hw]]
      at h1
    rw [show addEdge G u v w2 = addEdgeWeighted G u v w2 from by unfold addEdge; rw [if_pos hw]]
      at h2'
    obtain ⟨_, _, _, he1⟩ := addEdgeWeighted_ok_inv G u v w1 G1 h1
    have hw1flag : G1.weighted = true := by
      rw [he1]
      exact (stepW_fields G u v w1).2.2.1.trans hw
    rw [show addEdge G1 u v w2 = addEdgeWeighted G1 u v w2 from by
      unfold addEdge; rw [if_pos hw1flag]] at h2
    obtain ⟨_, _, _, he2⟩ := addEdgeWeighted_ok_inv G1 u v w2 G2 h2
    obtain ⟨_, _, _, he2'⟩ := addEdgeWeighted_ok_inv G u v w2 G2' h2'
    rw [he2, he1, he2', stepW_stepW G u v w1 w2 hlen hu hv hne]

/-- Witness for C7 at a concrete input. -/
theorem C7_witness :
    ∃ G', addEdge (stepW (initGraph 2 false true) 0 1 5) 0 1 7 = .ok G' ∧
      (getAdj G' 0).length = (getAdj (stepW (initGraph 2 false true) 0 1 5) 0).length ∧
      (1, (7 : ℚ)) ∈ getAdj G' 0 ∧
      ((stepW (initGraph 2 false true) 0 1 5).directed = false →
        (getAdj G' 1).length = (getAdj (stepW (initGraph 2 false true) 0 1 5) 1).length ∧
        (0, (7 : ℚ)) ∈ getAdj G' 1) :=
  (C7_weighted_overwrite (stepW (initGraph 2 false true) 0 1 5) 0 1 3 7
    (Reachable.step 0 1 5 (Reachable.init 2 false true)
      (by rw [show addEdge (initGraph 2 false true) 0 1 5 =
          addEdgeWeighted (initGraph 2 false true) 0 1 5 from rfl]
          exact addEdgeWeighted_eq_ok _ 0 1 5 (by decide) (by decide) (by decide)))
    rfl (by decide) (by decide) (by decide)).1 5 (by decide)

/-- Claim C8: the fixed-weight variant stores every edge with weight exactly
1.0 regardless of the caller-supplied weight (the call result does not depend
on the weight argument at all), and re-inserting the same pair is a no-op:
the second call returns exactly the state produced by the first. -/
theorem C8_unweighted_noop (G : Graph) (u v : Nat) (w w2 : ℚ) (hr : Reachable G)
    (hw : G.weighted = false) (hu : u < G.vertices) (hv : v < G.vertices) (hne : u ≠ v) :
    addEdge G u v w = addEdge G u v w2 ∧
    ∃ G', addEdge G u v w = .ok G' ∧ (v, (1 : ℚ)) ∈ getAdj G' u ∧
      (∀ p ∈ getAdj G' u, p.2 = 1) ∧
      addEdge G' u v w2 = .ok G' := by
  obtain ⟨hlen, _, hnodup, _, _⟩ := reachable_wf G hr
  have hdis : ∀ w' : ℚ, addEdge G u v w' = addEdgeUnweighted G u v w' := by
    intro w'
    unfold addEdge
    rw [if_neg (by simp [hw])]
  constructor
  · rw [hdis w, hdis w2]
    rfl
  · obtain ⟨hru, hrv, _⟩ := stepU_rows G u v hlen hu hv hne
    have hok : addEdge G u v w = .ok (stepU G u v) := by
      rw [hdis w]
      exact addEdgeUnweighted_eq_ok G u v w hu hv hne
    have hr' : Reachable (stepU G u v) := Reachable.step u v w hr hok
    obtain ⟨_, _, _, _, hone'⟩ := reachable_wf _ hr'
    have hmemu : (v, (1 : ℚ)) ∈ getAdj (stepU G u v) u := by
      rw [hru]
      by_cases hm : (v, (1 : ℚ)) ∈ getAdj G u
      · rw [if_pos hm]
        exact hm
      · rw [if_neg hm]
        exact List.mem_append.mpr (Or.inr (by simp))
    have hmemv : G.directed = false → (u, (1 : ℚ)) ∈ getAdj (stepU G u v) v := by
      intro hd
      rw [hrv, if_neg (by simp [hd])]
      by_cases hm : (u, (1 : ℚ)) ∈ getAdj G v
      · rw [if_pos hm]
        exact hm
      · rw [if_neg hm]
        exact List.mem_append.mpr (Or.inr (by simp))
    refine ⟨stepU G u v, hok, hmemu, ?_, ?_⟩
    · intro p hp
      exact hone' (by rw [(stepU_fields G u v).2.2.1]; exact hw) u p hp
    · have hdis' : addEdge (stepU G u v) u v w2 = addEdgeUnweighted (stepU G u v) u v w2 := by
        unfold addEdge
        rw [if_neg (by rw [(stepU_fields G u v).2.2.1]; simp [hw])]
      rw [hdis']
      rw [addEdgeUnweighted_eq_ok (stepU G u v) u v w2
        (by rw [(stepU_fields G u v).1]; exact hu)
        (by rw [(stepU_fields G u v).1]; exact hv) hne]
      rw [stepU_noop (stepU G u v) u v hmemu
        (fun hd => hmemv (by rw [← (stepU_fields G u v).2.1]; exact hd))]

/-- Witness for C8 at a concrete input. -/
theorem C8_witness :
    addEdge (initGraph 2 false false) 0 1 5 = addEdge (initGraph 2 false false) 0 1 9 ∧
    ∃ G', addEdge (initGraph 2 false false) 0 1 5 = .ok G' ∧
      (1, (1 : ℚ)) ∈ getAdj G' 0 ∧ (∀ p ∈ getAdj G' 0, p.2 = 1) ∧
      addEdge G' 0 1 9 = .ok G' :=
  C8_unweighted_noop (initGraph 2 false false) 0 1 5 9 (Reachable.init 2 false false)
    rfl (by decide) (by decide) (by decide)

/-- Claim C5: the incidence matrix has `vertexCount` rows and one column per
distinct edge (directed arcs; undirected edges counted once), columns
ordered lexicographically by `(u, v)` (directed) resp. `(min, max)`
(undirected); each column has exactly two non-zero entries: `-1` at the
source row and `+1` at the target row (sum 0) for directed graphs, `+1` at
both endpoint rows (sum 2) for undirected graphs. -/
theorem C5_incidence (G : Graph) (hr : Reachable G) :
    get_incidence_matrix G = specIncidence G ∧
    RectShape (get_incidence_matrix G) G.vertices (specEdges G).length ∧
    (specEdges G).Pairwise lexLt ∧
    (∀ e, e ∈ specEdges G ↔
      (e.1 < G.vertices ∧ e.2 < G.vertices ∧ hasArc G e.1 e.2 = true ∧
        (G.directed = false → e.1 < e.2))) ∧
    (∀ c, c < (specEdges G).length →
      ((List.range G.vertices).map (fun r => zget (get_incidence_matrix G) r c)).sum =
        (if G.directed then 0 else 2) ∧
      ((List.range G.vertices).map (fun r => zget (get_incidence_matrix G) r c)).countP
        (fun z => decide (z ≠ 0)) = 2) := by
  have hwf := reachable_wf G hr
  have heq := get_incidence_matrix_eq_spec G hwf
  refine ⟨heq, heq ▸ specIncidence_shape G, ?_, ?_, ?_⟩
  · unfold specEdges
    by_cases hd : G.directed
    · rw [if_pos hd]
      exact specEdgesDirected_pairwise G
    · rw [if_neg hd]
      exact specEdgesUndirected_pairwise G
  · intro e
    unfold specEdges
    by_cases hd : G.directed
    · rw [if_pos hd, mem_specEdgesDirected]
      constructor
      · rintro ⟨h1, h2, h3⟩
        exact ⟨h1, h2, h3, fun hdf => absurd hd (by simp [hdf])⟩
      · rintro ⟨h1, h2, h3, _⟩
        exact ⟨h1, h2, h3⟩
    · rw [if_neg hd, mem_specEdgesUndirected]
      have hdf : G.directed = false := Bool.not_eq_true _ ▸ hd
      constructor
      · rintro ⟨h1, h2, h3, h4⟩
        exact ⟨h1, h2, h4, fun _ => h3⟩
      · rintro ⟨h1, h2, h3, h4⟩
        exact ⟨h1, h2, h4 hdf, h3⟩
  · intro c hc
    have hmem : (specEdges G).getD c (0, 0) ∈ specEdges G := getD_mem_of_lt _ _ _ hc
    obtain ⟨ha1, ha2⟩ := specEdges_bounds G hwf _ hmem
    have hne := specEdges_ne G hwf _ hmem
    by_cases hd : G.directed
    · have hpt : ∀ r ∈ List.range G.vertices,
          zget (get_incidence_matrix G) r c =
            (if r = ((specEdges G).getD c (0, 0)).1 then (-1 : ℤ)
             else if r = ((specEdges G).getD c (0, 0)).2 then 1 else 0) := by
        intro r hrm
        rw [heq, zget_specIncidence G r c (List.mem_range.mp hrm) hc, if_pos hd]
      rw [List.map_congr_left hpt, if_pos hd]
      exact ⟨by rw [col_sum G.vertices _ _ (-1) 1 hne ha1 ha2]; ring,
        col_count G.vertices _ _ (-1) 1 (by decide) (by decide) hne ha1 ha2⟩
    · have hpt : ∀ r ∈ List.range G.vertices,
          zget (get_incidence_matrix G) r c =
            (if r = ((specEdges G).getD c (0, 0)).1 then (1 : ℤ)
             else if r = ((specEdges G).getD c (0, 0)).2 then 1 else 0) := by
        intro r hrm
        rw [heq, zget_specIncidence G r c (List.mem_range.mp hrm) hc, if_neg hd]
        by_cases hr1 : r = ((specEdges G).getD c (0, 0)).1
        · rw [if_pos (Or.inl hr1), if_pos hr1]
        · by_cases hr2 : r = ((specEdges G).getD c (0, 0)).2
          · rw [if_pos (Or.inr hr2), if_neg hr1, if_pos hr2]
          · rw [if_neg (by rintro (h | h) <;> [exact hr1 h; exact hr2 h]), if_neg hr1,
              if_neg hr2]
      rw [List.map_congr_left hpt, if_neg hd]
      exact ⟨by rw [col_sum G.vertices _ _ 1 1 hne ha1 ha2]; ring,
        col_count G.vertices _ _ 1 1 (by decide) (by decide) hne ha1 ha2⟩

/-- Witness for C5 at a concrete input. -/
theorem C5_witness :
    get_incidence_matrix (stepU (initGraph 3 false false) 0 1) =
      specIncidence (stepU (initGraph 3 false false) 0 1) ∧
    get_incidence_matrix (stepU (initGraph 3 false false) 0 1) = [[1], [1], [0]] :=
  ⟨(C5_incidence (stepU (initGraph 3 false false) 0 1)
      (Reachable.step 0 1 1 (Reachable.init 3 false false) (by decide))).1,
    by decide⟩

/-- Claim C6 (amended): the round trip `from_edges` → adjacency matrix →
`from_adjacency_matrix` reproduces the same adjacency-list export, provided
the vertex count is at least 1 (the empty matrix is rejected on re-import)
and every edge weight is non-zero (a zero weight is indistinguishable from
an absent edge in the matrix).  As stated in the spec — requiring only
in-range endpoints and no self-loops — the claim is false; see
`C6_counterexample`. -/
theorem C6_roundtrip (vertices : Int) (edges : List (Nat × Nat × ℚ)) (directed : Bool)
    (hv : 1 ≤ vertices)
    (hvalid : ∀ e ∈ edges, e.1 < vertices.toNat ∧ e.2.1 < vertices.toNat ∧
      e.1 ≠ e.2.1 ∧ e.2.2 ≠ 0) :
    ∃ G G', from_edges vertices edges directed = .ok G ∧
      from_adjacency_matrix (get_adjacency_matrix G) directed = .ok G' ∧
      get_adjacency_list G' = get_adjacency_list G := by
  obtain ⟨G, hok, hrG, hwnz, hvert, hdir, _⟩ := from_edges_ok vertices edges directed
    (le_trans (by norm_num) hv) hvalid
  have hn : 0 < G.vertices := by
    rw [hvert]
    omega
  obtain ⟨G', hok2, hlist⟩ := roundtrip_core G hrG hwnz hn
  rw [hdir] at hok2
  exact ⟨G, G', hok, hok2, hlist⟩

/-- Counterexample to C6 as literally stated: with zero vertices the empty
edge list is valid (all conditions hold vacuously) but the round trip fails,
since `from_adjacency_matrix` rejects the empty matrix with a value error;
and the edge `(0, 1, 0)` with weight `0` satisfies the claim's premises but
is dropped by the matrix encoding, so the re-imported adjacency list differs
from the original. -/
theorem C6_counterexample :
    (from_edges 0 [] false).map
      (fun g => from_adjacency_matrix (get_adjacency_matrix g) false) =
      .ok (.error .valueError) ∧
    (from_edges 2 [(0, 1, 0)] false).map
      (fun g => (from_adjacency_matrix (get_adjacency_matrix g) false).map
        (fun g2 => decide (get_adjacency_list g2 = get_adjacency_list g))) =
      .ok (.ok false) := by
  decide

/-- Witness for the amended C6 at a concrete input. -/
theorem C6_witness :
    ∃ G G', from_edges 2 [(0, 1, 5)] false = .ok G ∧
      from_adjacency_matrix (get_adjacency_matrix G) false = .ok G' ∧
      get_adjacency_list G' = get_adjacency_list G :=
  C6_roundtrip 2 [(0, 1, 5)] false (by decide) (by decide)
